import Mathlib

/-!
# Answer extraction of `so` (src/main.go)

Shallow embedding of the pure text pipeline of `main.go`: `stripHTML`,
`cleanCode` and `parseAnswer`, together with the library routines they call
(`strings.ReplaceAll`, `strings.Split`, `strings.Join`, `strings.TrimSpace`,
`strings.LastIndex` and the three regular expressions).

A Go `string` is a sequence of bytes and `len` counts bytes, so a string is
modelled as a list of byte values.  Every theorem below is stated for all lists
of naturals, which covers every byte string.  Slice and index expressions that
can panic in Go are modelled by `slice?` and `index?`, which return `none`
when the Go expression would be out of range.
-/

namespace So

/-- A Go string: its bytes, in order. -/
abbrev Str := List Nat

/-- UTF-8 encoding of one code point. -/
def utf8Enc (c : Nat) : Str :=
  if c < 0x80 then [c]
  else if c < 0x800 then [0xC0 + c / 64, 0x80 + c % 64]
  else if c < 0x10000 then [0xE0 + c / 4096, 0x80 + c / 64 % 64, 0x80 + c % 64]
  else [0xF0 + c / 262144, 0x80 + c / 4096 % 64, 0x80 + c / 64 % 64, 0x80 + c % 64]

/-- The bytes denoted by a string literal (Go source text is UTF-8). -/
def str (s : String) : Str := s.toList.flatMap (fun c => utf8Enc c.toNat)

/-! ## Checked slicing and indexing -/

/-- Go `s[lo:hi]`: out of range unless `0 ≤ lo ≤ hi ≤ len(s)`. -/
def slice? (s : Str) (lo hi : Int) : Option Str :=
  if 0 ≤ lo ∧ lo ≤ hi ∧ hi ≤ (s.length : Int) then
    some ((s.take hi.toNat).drop lo.toNat)
  else none

/-- Go `xs[i]`: out of range unless `0 ≤ i < len(xs)`. -/
def index? {α : Type} (xs : List α) (i : Int) : Option α :=
  if 0 ≤ i then xs[i.toNat]? else none

/-! ## package strings -/

/-- Offset of the first occurrence of `sub` in `s` (`strings.Index`), `none` for -1. -/
def indexOf (sub : Str) : Str → Option Nat
  | [] => if sub.isPrefixOf [] then some 0 else none
  | c :: t => if sub.isPrefixOf (c :: t) then some 0 else (indexOf sub t).map (· + 1)

/-- Whether `sub` occurs in `s` (`strings.Contains`). -/
def contains (s sub : Str) : Bool := (indexOf sub s).isSome

/-- Offset of the last occurrence of `sub` in `s`, or -1 (`strings.LastIndex`). -/
def lastIndex (s sub : Str) : Int :=
  match s with
  | [] => if sub.isPrefixOf [] then 0 else -1
  | c :: t =>
    let r := lastIndex t sub
    if 0 ≤ r then r + 1 else if sub.isPrefixOf (c :: t) then 0 else -1

/-- Worker of `replaceAll`: `skip` bytes of a matched occurrence are still to be
passed over. -/
def replaceAllGo (old new : Str) : Str → Nat → Str
  | [], _ => []
  | _ :: t, skip + 1 => replaceAllGo old new t skip
  | c :: t, 0 =>
    if old.isPrefixOf (c :: t) then new ++ replaceAllGo old new t (old.length - 1)
    else c :: replaceAllGo old new t 0

/-- Replacement of the non-overlapping occurrences of a non-empty `old`, found
left to right (`strings.ReplaceAll`). -/
def replaceAll (s old new : Str) : Str := replaceAllGo old new s 0

/-- Pieces of `s` between the occurrences of the one-byte separator `sep`
(`strings.Split` with a separator of length one); never the empty sequence. -/
def split (s : Str) (sep : Nat) : List Str :=
  match s with
  | [] => [[]]
  | c :: t =>
    if c = sep then [] :: split t sep
    else match split t sep with
      | [] => [[c]]
      | l :: ls => (c :: l) :: ls

/-- Concatenation with `sep` between consecutive elements (`strings.Join`). -/
def join (xs : List Str) (sep : Str) : Str :=
  match xs with
  | [] => []
  | [a] => a
  | a :: b :: r => a ++ sep ++ join (b :: r) sep

/-- The white-space code points of `unicode.IsSpace`. -/
def spaceRunes : List Nat :=
  [0x09, 0x0A, 0x0B, 0x0C, 0x0D, 0x20, 0x85, 0xA0, 0x1680,
   0x2000, 0x2001, 0x2002, 0x2003, 0x2004, 0x2005, 0x2006, 0x2007, 0x2008, 0x2009, 0x200A,
   0x2028, 0x2029, 0x202F, 0x205F, 0x3000]

/-- The UTF-8 encodings of the white-space code points.  A rune decoded at the
start (or at the end) of a string is white space exactly when the string
starts (ends) with one of these byte sequences: invalid bytes decode to
U+FFFD, which is not white space. -/
def spaceSeqs : List Str := spaceRunes.map utf8Enc

/-- Removal of at most `n` leading white-space characters. -/
def trimLeftN : Nat → Str → Str
  | 0, s => s
  | n + 1, s =>
    match spaceSeqs.find? (fun w => w.isPrefixOf s) with
    | some w => trimLeftN n (s.drop w.length)
    | none => s

/-- Removal of at most `n` trailing white-space characters. -/
def trimRightN : Nat → Str → Str
  | 0, s => s
  | n + 1, s =>
    match spaceSeqs.find? (fun w => w.isSuffixOf s) with
    | some w => trimRightN n (s.take (s.length - w.length))
    | none => s

/-- Removal of all leading and trailing white space as defined by Unicode
(`strings.TrimSpace`); a string has at most `len` characters. -/
def TrimSpace (s : Str) : Str :=
  let l := trimLeftN s.length s
  trimRightN l.length l

/-! ## package regexp: the three patterns of main.go -/

/-- Offset just past the first `>` of `s`: the only way `[^>]*>` can match at
the start of `s`. -/
def pastGt : Str → Option Nat
  | [] => none
  | c :: t => if c = 62 then some 1 else (pastGt t).map (· + 1)

/-- Match offsets of one occurrence of `preCodeRe`: whole match `[m0, m1)`,
capture group `[m2, m3)`. -/
structure Loc where
  m0 : Nat
  m1 : Nat
  m2 : Nat
  m3 : Nat
deriving DecidableEq, Repr

/-- The match of `(?s)<pre[^>]*><code[^>]*>(.*?)</code></pre>` starting at the
first byte of `s`, as offsets relative to `s`.  Each `[^>]*>` ends at the next
`>`, and the lazy `(.*?)` ends at the first `</code></pre>` that follows, so a
start position has at most one match. -/
def preCodeAt (s : Str) : Option Loc :=
  if (str "<pre").isPrefixOf s then
    match pastGt (s.drop 4) with
    | none => none
    | some a =>
      if (str "<code").isPrefixOf (s.drop (4 + a)) then
        match pastGt (s.drop (4 + a + 5)) with
        | none => none
        | some b =>
          match indexOf (str "</code></pre>") (s.drop (4 + a + 5 + b)) with
          | none => none
          | some k => some ⟨0, 4 + a + 5 + b + k + 13, 4 + a + 5 + b, 4 + a + 5 + b + k⟩
      else none
  else none

/-- Worker of `findAllSubmatchIndex`: `s` is the text from offset `off` on, and
`skip` bytes of the previous match are still to be passed over. -/
def findAllGo : Str → Nat → Nat → List Loc
  | [], _, _ => []
  | _ :: t, off, skip + 1 => findAllGo t (off + 1) skip
  | c :: t, off, 0 =>
    match preCodeAt (c :: t) with
    | some m => ⟨off, off + m.m1, off + m.m2, off + m.m3⟩ :: findAllGo t (off + 1) (m.m1 - 1)
    | none => findAllGo t (off + 1) 0

/-- All successive non-overlapping leftmost matches of `preCodeRe`
(`preCodeRe.FindAllStringSubmatchIndex(html, -1)`). -/
def findAllSubmatchIndex (html : Str) : List Loc := findAllGo html 0 0

/-- The class `\w`. -/
def isWord (c : Nat) : Bool :=
  (48 ≤ c && c ≤ 57) || (65 ≤ c && c ≤ 90) || (97 ≤ c && c ≤ 122) || c == 95

/-- The class `\s`. -/
def isReSpace (c : Nat) : Bool :=
  c == 9 || c == 10 || c == 12 || c == 13 || c == 32

/-- End offset of the match of `^:\w+\s*\n`, if the text has one: a colon, the
longest run of word bytes (not empty), then the longest run of `\s` bytes cut
back to its last newline. -/
def langHintEnd (s : Str) : Option Nat :=
  match s with
  | 58 :: t =>
    let w := t.takeWhile isWord
    if w.length = 0 then none
    else
      let sp := (t.drop w.length).takeWhile isReSpace
      let j := lastIndex sp [10]
      if 0 ≤ j then some (1 + w.length + j.toNat + 1) else none
  | _ => none

/-- Result of `langHintRe.ReplaceAllString(code, "")`. -/
def removeLangHint (code : Str) : Str :=
  match langHintEnd code with
  | some e => code.drop e
  | none => code

/-- Worker of `stripTags`; `inTag` holds between the `<` of a match of
`<[^>]*>` and its closing `>`. -/
def stripTagsGo : Str → Bool → Str
  | [], _ => []
  | c :: t, true => if c = 62 then stripTagsGo t false else stripTagsGo t true
  | c :: t, false =>
    if c = 60 ∧ 62 ∈ t then stripTagsGo t true else c :: stripTagsGo t false

/-- Result of `tagRe.ReplaceAllString(s, "")` for `<[^>]*>`: a match starts at
each `<` that has a `>` after it and ends at the first such `>`. -/
def stripTags (s : Str) : Str := stripTagsGo s false

/-! ## main.go -/

/-- The six entity replacements shared by `cleanCode` (lines 214–219) and
`stripHTML` (lines 309–314), in source order. -/
def decodeEntities (s : Str) : Str :=
  let s := replaceAll s (str "&lt;") (str "<")
  let s := replaceAll s (str "&gt;") (str ">")
  let s := replaceAll s (str "&quot;") (str "\"")
  let s := replaceAll s (str "&amp;") (str "&")
  let s := replaceAll s (str "&#39;") (str "'")
  replaceAll s (str "&#x27;") (str "'")

/-- Function `cleanCode` (lines 212–234). -/
def cleanCode (code : Str) : Str :=
  let code := decodeEntities code
  let code := removeLangHint code
  let code := replaceAll code (str "<!-- language: lang-") []
  let code := replaceAll code (str "<!-- language-all: lang-") []
  stripTags code

/-- Function `stripHTML` (lines 304–331). -/
def stripHTML (s : Str) : Str :=
  let s := replaceAll s (str "<p>") (str "\n")
  let s := replaceAll s (str "</p>") (str "\n")
  let s := replaceAll s (str "<br>") (str "\n")
  let s := replaceAll s (str "<br/>") (str "\n")
  let s := decodeEntities s
  let s := stripTags s
  let lines := split s 10
  let cleaned := (lines.map TrimSpace).filter (fun line => line ≠ [])
  join cleaned (str "\n")

/-- Lines 176–184 of `parseAnswer`: the cut applied to the trimmed text before
the first block. -/
def cutBefore (textBefore : Str) : Option Str :=
  if textBefore.length > 150 then
    let sentences := split textBefore 46
    if sentences.length > 1 then
      (index? sentences ((sentences.length : Int) - 2)).map (· ++ str ".")
    else
      slice? textBefore ((textBefore.length : Int) - 150) textBefore.length
  else some textBefore

/-- Lines 187–194 of `parseAnswer`: the loop over the matches. -/
def extractCodes (html : Str) : List Loc → Option (List Str)
  | [] => some []
  | m :: ms =>
    match slice? html m.m2 m.m3 with
    | none => none
    | some code =>
      let code := TrimSpace (cleanCode code)
      match extractCodes html ms with
      | none => none
      | some rest => some (if code ≠ [] then code :: rest else rest)

/-- Lines 200–206 of `parseAnswer`: the cut applied to the trimmed text after
the last block. -/
def cutAfter (textAfter : Str) : Option Str :=
  if textAfter.length > 150 then
    match slice? textAfter 0 150 with
    | none => none
    | some cut =>
      let idx := lastIndex cut (str ".")
      if idx > 0 then slice? cut 0 (idx + 1) else some cut
  else some textAfter

/-- Function `parseAnswer` (lines 165–210): `(codes, textBefore, textAfter)`,
or `none` when a slice or index expression is out of range. -/
def parseAnswer (html : Str) : Option (List Str × Str × Str) :=
  let ms := findAllSubmatchIndex html
  if ms.length > 0 then
    match index? ms 0 with
    | none => none
    | some first =>
    match slice? html 0 first.m0 with
    | none => none
    | some rawBefore =>
    match cutBefore (TrimSpace (stripHTML rawBefore)) with
    | none => none
    | some textBefore =>
    match extractCodes html ms with
    | none => none
    | some codes =>
    match index? ms ((ms.length : Int) - 1) with
    | none => none
    | some lastMatch =>
    match slice? html lastMatch.m1 html.length with
    | none => none
    | some rawAfter =>
    match cutAfter (TrimSpace (stripHTML rawAfter)) with
    | none => none
    | some textAfter => some (codes, textBefore, textAfter)
  else some ([], [], [])

/-! ## Auxiliary definitions used in the statements -/

/-- The code bodies kept by the loop of lines 187–194 when every slice is in range. -/
def codeBodies (html : Str) (ms : List Loc) : List Str :=
  (ms.map (fun m => TrimSpace (cleanCode ((html.take m.m3).drop m.m2)))).filter (fun c => c ≠ [])

/-- A complete block `<pre><code>C</code></pre>`. -/
def blk (C : Str) : Str := str "<pre><code>" ++ C ++ str "</code></pre>"

/-- The decoded, trimmed text before the first block: the text the before-text is
cut from (empty when there is no block). -/
def beforeSource (html : Str) : Str :=
  match findAllSubmatchIndex html with
  | [] => []
  | m :: _ => TrimSpace (stripHTML (html.take m.m0))

/-- The decoded, trimmed text after the last block: the text the after-text is cut
from (empty when there is no block). -/
def afterSource (html : Str) : Str :=
  match (findAllSubmatchIndex html).getLast? with
  | none => []
  | some m => TrimSpace (stripHTML (html.drop m.m1))

/-- The entity table as claim C2 words it: each entity with the character it names. -/
def specEntities : List (Str × Nat) :=
  [(str "&lt;", 60), (str "&gt;", 62), (str "&quot;", 34), (str "&amp;", 38),
   (str "&#39;", 39), (str "&#x27;", 39)]

/-- Worker of `specDecode`; `skip` bytes of the entity just replaced remain. -/
def specDecodeGo : Str → Nat → Str
  | [], _ => []
  | _ :: t, skip + 1 => specDecodeGo t skip
  | c :: t, 0 =>
    match specEntities.find? (fun e => e.1.isPrefixOf (c :: t)) with
    | some e => e.2 :: specDecodeGo t (e.1.length - 1)
    | none => c :: specDecodeGo t 0

/-- The decoder `D` of claim C2, following the claim's words (not the source): one
left-to-right pass that replaces every occurrence of the six entities by the
character it names and changes nothing else. -/
def specDecode (s : Str) : Str := specDecodeGo s 0

/-- Whether `<[^>]*>` has a match in `t`: some `<` of `t` has a `>` after it. -/
def hasTag : Str → Bool
  | [] => false
  | c :: t => decide (c = 60 ∧ 62 ∈ t) || hasTag t

/-! ## main.go: showAnswer -/

/-- Type `Question` (lines 23–31). -/
structure Question where
  Title : Str
  QuestionID : Int
  AnswerCount : Int
  Score : Int
  Link : Str
  IsAnswered : Bool
  Body : Str

/-- Type `Answer` (lines 37–41). -/
structure Answer where
  Score : Int
  IsAccepted : Bool
  Body : Str
deriving DecidableEq

/-- Two's-complement wrap-around of 64-bit `int` arithmetic. -/
def wrapInt (x : Int) : Int :=
  (x + 9223372036854775808) % 18446744073709551616 - 9223372036854775808

/-- Decimal digits of `n`, most significant first; the first argument bounds the
number of digits. -/
def fmtNatN : Nat → Nat → Str
  | 0, n => [48 + n % 10]
  | f + 1, n => if n < 10 then [48 + n] else fmtNatN f (n / 10) ++ [48 + n % 10]

/-- The verb `%d` of package fmt: decimal, with a minus sign when negative. -/
def fmtInt (i : Int) : Str :=
  if i < 0 then 45 :: fmtNatN (-i).toNat (-i).toNat else fmtNatN i.toNat i.toNat

/-- What a run of `showAnswer` does: the question ids passed to `getAnswers`, in
order, the bytes written to standard output, and whether the run ended in a
run-time panic (slice or index out of range). -/
structure Run where
  fetched : List Int
  out : Str
  panicked : Bool
deriving DecidableEq

/-- Lines 105–122 of `showAnswer`, the block for verbosity 2 and above: the text
written, and `true` when `qBody[:300]` is out of range. -/
def fullHeader (q : Question) (ans : Answer) (answerNum total : Int) : Str × Bool :=
  let accepted := if ans.IsAccepted then str " [ACCEPTED]" else []
  let o := str "Question: " ++ q.Title ++ str "\n"
  let o := o ++ (str "Score: " ++ fmtInt q.Score ++ str " | Answers: " ++ fmtInt q.AnswerCount
    ++ str "\n")
  let o := o ++ (List.replicate 70 45 ++ str "\n")
  let qBody := stripHTML q.Body
  match (if qBody.length > 300 then (slice? qBody 0 300).map (fun c => c ++ str "...")
      else some qBody) with
  | none => (o, true)
  | some qBody =>
    let o := o ++ (str "\n" ++ qBody ++ str "\n\n")
    let o := o ++ (List.replicate 70 61 ++ str "\n")
    let o := o ++ (str "Answer " ++ fmtInt answerNum ++ str "/" ++ fmtInt total ++
      str " | Score: " ++ fmtInt ans.Score ++ accepted ++ str "\n")
    (o ++ (List.replicate 70 45 ++ str "\n"), false)

/-- Lines 137–142 of `showAnswer`: the loop printing the snippets; `n` is
`len(code)` and `i` the index of the first snippet of the list. -/
def printCodes (n : Nat) : Nat → List Str → Str
  | _, [] => []
  | i, snippet :: rest =>
    snippet ++ str "\n" ++ (if (i : Int) < (n : Int) - 1 then str "\n" else []) ++
      printCodes n (i + 1) rest

/-- Lines 136–149 of `showAnswer`: the snippets, or without any the decoded body,
cut to 200 bytes at verbosity 0; `none` when `text[:200]` is out of range. -/
def bodyPart (verbosity : Int) (code : List Str) (body : Str) : Option Str :=
  if code.length > 0 then some (printCodes code.length 0 code)
  else
    let text := stripHTML body
    if verbosity = 0 ∧ text.length > 200 then
      (slice? text 0 200).map (fun c => c ++ str "..." ++ str "\n")
    else some (text ++ str "\n")

/-- Lines 104–162 of `showAnswer`: everything written for the selected answer, and
`true` when a slice is out of range. -/
def renderAnswer (verbosity : Int) (q : Question) (ans : Answer) (answerNum total : Int) :
    Str × Bool :=
  match (if verbosity ≥ 2 then fullHeader q ans answerNum total else ([], false)) with
  | (o, true) => (o, true)
  | (o, false) =>
    match parseAnswer ans.Body with
    | none => (o, true)
    | some (code, textBefore, textAfter) =>
      let o :=
        if verbosity ≥ 1 ∧ textBefore.length > 0 then
          o ++ (textBefore ++ str "\n") ++ (if code.length > 0 then str "\n" else [])
        else o
      match bodyPart verbosity code ans.Body with
      | none => (o, true)
      | some body =>
        let o := o ++ body
        let o :=
          if verbosity ≥ 1 ∧ textAfter.length > 0 then
            o ++ (if code.length > 0 then str "\n" else []) ++ (textAfter ++ str "\n")
          else o
        let o := if verbosity ≥ 2 then o ++ (str "\n" ++ q.Link ++ str "\n") else o
        (o, false)

/-- Function `showAnswer` (lines 86–163).  The global `verbosity` and the network
call `getAnswers` (its result: the answer list or an error message) are
parameters. -/
def showAnswer (getAnswers : Int → Except Str (List Answer)) (verbosity : Int)
    (q : Question) (answerNum : Int) : Run :=
  if q.AnswerCount = 0 then ⟨[], str "no answers\n", false⟩
  else
    match getAnswers q.QuestionID with
    | .error _ => ⟨[q.QuestionID], str "no answers\n", false⟩
    | .ok answers =>
      if answers.length = 0 then ⟨[q.QuestionID], str "no answers\n", false⟩
      else
        let answerNum := if answerNum > (answers.length : Int) then (answers.length : Int)
          else answerNum
        match index? answers (wrapInt (answerNum - 1)) with
        | none => ⟨[q.QuestionID], [], true⟩
        | some ans =>
          let r := renderAnswer verbosity q ans answerNum answers.length
          ⟨[q.QuestionID], r.1, r.2⟩

/-! ## Auxiliary definitions for the rendering and white-space claims -/

/-- Whether `s` begins with a white-space character. -/
def startsWithSpace (s : Str) : Bool := spaceSeqs.any (fun w => w.isPrefixOf s)

/-- Whether `s` ends with a white-space character. -/
def endsWithSpace (s : Str) : Bool := spaceSeqs.any (fun w => w.isSuffixOf s)

/-- Number of characters (code points) of well-formed UTF-8 text: the bytes that
are not continuation bytes `10xxxxxx`. -/
def runeCount (s : Str) : Nat := (s.filter (fun b => b < 128 || 192 ≤ b)).length

/-- A question with two answers, used in the instances below. -/
def sampleQuestion : Question :=
  ⟨str "How?", 42, 2, 17, str "https://x/q/42", true, str "<p>body &amp; more</p>"⟩

/-- A question recorded with no answer. -/
def sampleUnanswered : Question :=
  ⟨str "How?", 42, 0, 17, str "https://x/q/42", true, str "<p>body &amp; more</p>"⟩

/-- An accepted answer with two code blocks between two sentences. -/
def sampleAnswerCode : Answer :=
  ⟨5, true, str "<p>Try this:</p><pre><code>x := 1</code></pre>or<pre><code>y</code></pre><p>Done.</p>"⟩

/-- An answer without any code block. -/
def sampleAnswerProse : Answer := ⟨-3, false, str "<p>no code at all</p>"⟩

/-- A retrieval that succeeds with the two sample answers. -/
def sampleFetch : Int → Except Str (List Answer) :=
  fun _ => .ok [sampleAnswerCode, sampleAnswerProse]



/-! ## Auxiliary definitions for the entity decoding -/

/-- The characters the six entities stand for, among them `&`. -/
def outChars : List Nat := [38, 60, 62, 34, 39]

/-- An entry of an entity table is well formed: the name starts with `&`, the rest
of the name holds no character an entity stands for, and the value is one of
those characters. -/
def goodEntry (p : Str × Nat) : Bool :=
  p.1.head? == some 38 && p.1.tail.all (fun b => decide (b ∉ outChars)) && decide (p.2 ∈ outChars)

/-- The passes of `decodeEntities` for a table of entities: one `replaceAll` over
the whole text per entry, in the order of the table. -/
def seqDecode (tbl : List (Str × Nat)) (s : Str) : Str :=
  tbl.foldl (fun acc p => replaceAll acc p.1 [p.2]) s

/-! # Theorems -/

/-! ## Literals -/

theorem str_pre : str "<pre" = [60, 112, 114, 101] := by decide
theorem str_code : str "<code" = [60, 99, 111, 100, 101] := by decide
theorem str_close :
    str "</code></pre>" = [60, 47, 99, 111, 100, 101, 62, 60, 47, 112, 114, 101, 62] := by decide
theorem str_open :
    str "<pre><code>" = [60, 112, 114, 101, 62, 60, 99, 111, 100, 101, 62] := by decide
theorem str_dot : str "." = [46] := by decide
theorem str_nl : str "\n" = [10] := by decide

/-! ## Sample evaluations of the library models -/

theorem stripHTML_sample :
    stripHTML (str "<p>Hello <b>world</b></p>\n<br/>  line2 &amp; more  <br>x")
      = str "Hello world\nline2 & more\nx" := by decide

theorem cleanCode_sample :
    cleanCode (str ":sh  \n\nls -l <span class=\"k\">|</span> wc") = str "ls -l | wc" := by
  decide

theorem TrimSpace_sample :
    TrimSpace (str " \t\u00a0\u3000a b\u2003\r\n") = str "a b" ∧
      TrimSpace [0x85, 32, 97, 32, 0xC2] = [0x85, 32, 97, 32, 0xC2] := by decide

/-! ## Checked operations inside their range -/

theorem slice?_of_le {s : Str} {lo hi : Nat} (h1 : lo ≤ hi) (h2 : hi ≤ s.length) :
    slice? s (lo : Int) (hi : Int) = some ((s.take hi).drop lo) := by
  unfold slice?
  rw [if_pos (by omega)]
  simp

theorem slice?_zero {s : Str} {hi : Nat} (h2 : hi ≤ s.length) :
    slice? s 0 (hi : Int) = some (s.take hi) := by
  have := @slice?_of_le s 0 hi (Nat.zero_le hi) h2
  simpa using this

theorem slice?_to_end {s : Str} {lo : Nat} (h1 : lo ≤ s.length) :
    slice? s (lo : Int) (s.length : Int) = some (s.drop lo) := by
  rw [slice?_of_le h1 (Nat.le_refl _)]
  simp

theorem index?_of_lt {α : Type} {xs : List α} {i : Nat} (h : i < xs.length) :
    index? xs (i : Int) = some (xs.get ⟨i, h⟩) := by
  unfold index?
  simp [h]

/-! ## Offsets returned by the searches -/

theorem isPrefixOf_length_le {p s : Str} (h : p.isPrefixOf s = true) : p.length ≤ s.length :=
  (List.isPrefixOf_iff_prefix.mp h).length_le

theorem pastGt_bounds : ∀ (s : Str) (a : Nat), pastGt s = some a → 1 ≤ a ∧ a ≤ s.length
  | [], a, h => by simp [pastGt] at h
  | c :: t, a, h => by
    unfold pastGt at h
    split at h
    · simp at h; subst h; simp
    · cases hr : pastGt t with
      | none => simp [hr] at h
      | some r =>
        have := pastGt_bounds t r hr
        simp [hr] at h
        subst h
        simp
        omega

theorem indexOf_bounds (sub : Str) :
    ∀ (s : Str) (k : Nat), indexOf sub s = some k → k + sub.length ≤ s.length
  | [], k, h => by
    unfold indexOf at h
    split at h
    · rename_i hp
      have := isPrefixOf_length_le hp
      simp at h; subst h; simpa using this
    · simp at h
  | c :: t, k, h => by
    unfold indexOf at h
    split at h
    · rename_i hp
      have := isPrefixOf_length_le hp
      simp at h; subst h; simpa using this
    · cases hr : indexOf sub t with
      | none => simp [hr] at h
      | some r =>
        have := indexOf_bounds sub t r hr
        simp [hr] at h
        subst h
        simp
        omega

theorem preCodeAt_bounds {s : Str} {m : Loc} (h : preCodeAt s = some m) :
    m.m0 = 0 ∧ 24 ≤ m.m1 ∧ m.m2 ≤ m.m3 ∧ m.m3 ≤ m.m1 ∧ m.m1 ≤ s.length := by
  unfold preCodeAt at h
  split at h
  · rename_i hp
    have h4 := isPrefixOf_length_le hp
    rw [str_pre] at h4
    split at h
    · simp at h
    · rename_i a ha
      have hab := pastGt_bounds _ _ ha
      split at h
      · rename_i hc
        have h5 := isPrefixOf_length_le hc
        rw [str_code] at h5
        split at h
        · simp at h
        · rename_i b hb
          have hbb := pastGt_bounds _ _ hb
          split at h
          · simp at h
          · rename_i k hk
            have hkb := indexOf_bounds _ _ _ hk
            rw [str_close] at hkb
            simp only [List.length_drop, List.length_cons, List.length_nil] at *
            simp only [Option.some.injEq] at h
            subst h
            refine ⟨rfl, ?_⟩
            show 24 ≤ 4 + a + 5 + b + k + 13 ∧ 4 + a + 5 + b ≤ 4 + a + 5 + b + k ∧
              4 + a + 5 + b + k ≤ 4 + a + 5 + b + k + 13 ∧ 4 + a + 5 + b + k + 13 ≤ s.length
            omega
      · simp at h
  · simp at h

theorem findAllGo_bounds : ∀ (s : Str) (off skip : Nat) (m : Loc), m ∈ findAllGo s off skip →
    off ≤ m.m0 ∧ m.m0 ≤ m.m2 ∧ m.m2 ≤ m.m3 ∧ m.m3 ≤ m.m1 ∧ m.m1 ≤ off + s.length
  | [], off, skip, m, h => by simp [findAllGo] at h
  | c :: t, off, skip + 1, m, h => by
    rw [findAllGo] at h
    have := findAllGo_bounds t (off + 1) skip m h
    simp only [List.length_cons]
    omega
  | c :: t, off, 0, m, h => by
    rw [findAllGo] at h
    split at h
    · rename_i r hr
      have hb := preCodeAt_bounds hr
      rcases List.mem_cons.mp h with h | h
      · subst h
        simp only [List.length_cons] at *
        omega
      · have := findAllGo_bounds t (off + 1) _ m h
        simp only [List.length_cons]
        omega
    · have := findAllGo_bounds t (off + 1) 0 m h
      simp only [List.length_cons]
      omega

theorem findAll_bounds {html : Str} {m : Loc} (h : m ∈ findAllSubmatchIndex html) :
    m.m0 ≤ m.m2 ∧ m.m2 ≤ m.m3 ∧ m.m3 ≤ m.m1 ∧ m.m1 ≤ html.length := by
  have := findAllGo_bounds html 0 0 m h
  omega

/-! ## The pieces of `parseAnswer` -/

theorem split_length_pos : ∀ (s : Str) (sep : Nat), 0 < (split s sep).length
  | [], sep => by simp [split]
  | c :: t, sep => by
    have := split_length_pos t sep
    unfold split
    split
    · simp
    · split <;> simp

theorem split_length_one_iff : ∀ (s : Str) (sep : Nat), (split s sep).length ≤ 1 ↔ sep ∉ s
  | [], sep => by simp [split]
  | c :: t, sep => by
    have ih := split_length_one_iff t sep
    have hp := split_length_pos t sep
    unfold split
    by_cases hc : c = sep
    · subst hc
      simp
      intro h0
      simp [h0] at hp
    · rw [if_neg hc]
      have hne : ¬ sep = c := fun h => hc h.symm
      cases hs : split t sep with
      | nil => simp [hs] at hp
      | cons l ls =>
        simp only [hs, List.length_cons] at ih ⊢
        simpa [hne] using ih

theorem lastIndex_bounds (sub : Str) (hsub : sub ≠ []) :
    ∀ s : Str, -1 ≤ lastIndex s sub ∧ lastIndex s sub < (s.length : Int)
  | [] => by
    cases sub with
    | nil => exact absurd rfl hsub
    | cons a l => simp [lastIndex, List.isPrefixOf]
  | c :: t => by
    have ih := lastIndex_bounds sub hsub t
    unfold lastIndex
    simp only [List.length_cons, Nat.cast_add, Nat.cast_one]
    split
    · omega
    · split <;> omega

theorem cutBefore_short {T : Str} (h : T.length ≤ 150) : cutBefore T = some T := by
  unfold cutBefore
  rw [if_neg (by omega)]

theorem cutBefore_sentence {T : Str} (h : 150 < T.length) (h2 : 1 < (split T 46).length) :
    ∃ piece, (split T 46)[(split T 46).length - 2]? = some piece ∧
      cutBefore T = some (piece ++ [46]) := by
  have hlt : (split T 46).length - 2 < (split T 46).length := by omega
  refine ⟨(split T 46).get ⟨_, hlt⟩, by simp, ?_⟩
  unfold cutBefore
  rw [if_pos (by omega)]
  simp only
  rw [if_pos (by omega)]
  have hc : ((split T 46).length : Int) - 2 = (((split T 46).length - 2 : Nat) : Int) := by omega
  rw [hc, index?_of_lt hlt, str_dot]
  rfl

theorem cutBefore_tail {T : Str} (h : 150 < T.length) (h2 : (split T 46).length ≤ 1) :
    cutBefore T = some (T.drop (T.length - 150)) := by
  unfold cutBefore
  rw [if_pos (by omega)]
  simp only
  rw [if_neg (by omega)]
  have hc : (T.length : Int) - 150 = ((T.length - 150 : Nat) : Int) := by omega
  rw [hc, slice?_to_end (by omega)]

theorem cutBefore_total (T : Str) : ∃ b, cutBefore T = some b := by
  by_cases h : T.length ≤ 150
  · exact ⟨_, cutBefore_short h⟩
  · by_cases h2 : 1 < (split T 46).length
    · obtain ⟨p, _, hp⟩ := cutBefore_sentence (by omega) h2
      exact ⟨_, hp⟩
    · exact ⟨_, cutBefore_tail (by omega) (by omega)⟩

theorem cutAfter_short {U : Str} (h : U.length ≤ 150) : cutAfter U = some U := by
  unfold cutAfter
  rw [if_neg (by omega)]

theorem cutAfter_long {U : Str} (h : 150 < U.length) :
    cutAfter U = some (if lastIndex (U.take 150) [46] > 0
      then U.take (lastIndex (U.take 150) [46] + 1).toNat else U.take 150) := by
  unfold cutAfter
  rw [if_pos (by omega)]
  have h1 : slice? U 0 150 = some (U.take 150) := by
    have := @slice?_zero U 150 (by omega)
    simpa using this
  simp only [h1, str_dot]
  have hb := lastIndex_bounds [46] (by simp) (U.take 150)
  have hl : (U.take 150).length = 150 := by simp; omega
  split
  · rename_i hpos
    obtain ⟨n, hn⟩ := @Int.eq_ofNat_of_zero_le (lastIndex (U.take 150) [46] + 1) (by omega)
    rw [hn, slice?_zero (by omega)]
    simp only [Int.toNat_ofNat, List.take_take]
    congr 2
    omega
  · rfl

theorem cutAfter_total (U : Str) : ∃ a, cutAfter U = some a := by
  by_cases h : U.length ≤ 150
  · exact ⟨_, cutAfter_short h⟩
  · exact ⟨_, cutAfter_long (by omega)⟩

theorem extractCodes_eq (html : Str) :
    ∀ ms : List Loc, (∀ m ∈ ms, m.m2 ≤ m.m3 ∧ m.m3 ≤ html.length) →
      extractCodes html ms = some (codeBodies html ms)
  | [], _ => by simp [extractCodes, codeBodies]
  | m :: ms, h => by
    have hm := h m (List.mem_cons_self _ _)
    have ih := extractCodes_eq html ms (fun x hx => h x (List.mem_cons_of_mem _ hx))
    unfold extractCodes
    rw [slice?_of_le hm.1 hm.2]
    simp only [ih]
    unfold codeBodies
    by_cases hc : TrimSpace (cleanCode ((html.take m.m3).drop m.m2)) = []
    · simp [hc]
    · simp [hc]

theorem parseAnswer_nil {html : Str} (h : findAllSubmatchIndex html = []) :
    parseAnswer html = some ([], [], []) := by
  unfold parseAnswer
  simp [h]

theorem parseAnswer_cons {html : Str} {m : Loc} {rest : List Loc} {b a : Str}
    (h : findAllSubmatchIndex html = m :: rest)
    (hb : cutBefore (TrimSpace (stripHTML (html.take m.m0))) = some b)
    (ha : cutAfter (TrimSpace (stripHTML
      (html.drop ((m :: rest).getLast (List.cons_ne_nil _ _)).m1))) = some a) :
    parseAnswer html = some (codeBodies html (m :: rest), b, a) := by
  have hbd : ∀ x ∈ m :: rest, x.m0 ≤ x.m2 ∧ x.m2 ≤ x.m3 ∧ x.m3 ≤ x.m1 ∧ x.m1 ≤ html.length := by
    intro x hx
    rw [← h] at hx
    exact findAll_bounds hx
  have hm := hbd m (List.mem_cons_self _ _)
  have hl := hbd _ (List.getLast_mem (List.cons_ne_nil m rest))
  unfold parseAnswer
  simp only [h]
  rw [if_pos (by simp)]
  have h0 : index? (m :: rest) 0 = some m := by simp [index?]
  have hlast : index? (m :: rest) (((m :: rest).length : Int) - 1) =
      some ((m :: rest).getLast (List.cons_ne_nil _ _)) := by
    have hc : (((m :: rest).length : Int) - 1) = (((m :: rest).length - 1 : Nat) : Int) := by
      simp
    rw [hc, index?_of_lt (by simp)]
    rw [List.getLast_eq_getElem]
    rfl
  rw [h0]
  simp only
  rw [slice?_zero (by omega)]
  simp only [hb]
  rw [extractCodes_eq html _ (fun x hx => ⟨(hbd x hx).2.1, by have := hbd x hx; omega⟩)]
  simp only [hlast]
  rw [slice?_to_end hl.2.2.2]
  simp only [ha]

theorem parseAnswer_total (html : Str) : ∃ r, parseAnswer html = some r := by
  cases h : findAllSubmatchIndex html with
  | nil => exact ⟨_, parseAnswer_nil h⟩
  | cons m rest =>
    obtain ⟨b, hb⟩ := cutBefore_total (TrimSpace (stripHTML (html.take m.m0)))
    obtain ⟨a, ha⟩ := cutAfter_total (TrimSpace (stripHTML
      (html.drop ((m :: rest).getLast (List.cons_ne_nil _ _)).m1)))
    exact ⟨_, parseAnswer_cons h hb ha⟩

/-! ## Occurrences of a literal -/

theorem contains_cons_false {c : Nat} {t sub : Str} (h : contains (c :: t) sub = false) :
    sub.isPrefixOf (c :: t) = false ∧ contains t sub = false := by
  unfold contains indexOf at h
  split at h
  · simp at h
  · rename_i hp
    refine ⟨Bool.eq_false_iff.mpr hp, ?_⟩
    unfold contains
    cases hr : indexOf sub t with
    | none => rfl
    | some r => simp [hr] at h

theorem contains_nil_false {sub : Str} (h : contains [] sub = false) :
    sub.isPrefixOf [] = false := by
  unfold contains indexOf at h
  split at h
  · simp at h
  · rename_i hp
    exact Bool.eq_false_iff.mpr hp

theorem contains_false_drop : ∀ (s sub : Str) (n : Nat), contains s sub = false →
    sub.isPrefixOf (s.drop n) = false
  | [], sub, n, h => by simpa using contains_nil_false h
  | c :: t, sub, 0, h => (contains_cons_false h).1
  | c :: t, sub, n + 1, h => by
    simpa using contains_false_drop t sub n (contains_cons_false h).2

theorem indexOf_none_of_forall (sub : Str) : ∀ s : Str,
    (∀ n, sub.isPrefixOf (s.drop n) = false) → indexOf sub s = none
  | [], h => by
    have := h 0
    simp only [List.drop_zero] at this
    simp [indexOf, this]
  | c :: t, h => by
    have h0 := h 0
    simp only [List.drop_zero] at h0
    have ih := indexOf_none_of_forall sub t (fun n => by simpa using h (n + 1))
    simp [indexOf, h0, ih]

theorem indexOf_split (sub : Str) : ∀ (s : Str) (k : Nat), indexOf sub s = some k →
    s = s.take k ++ sub ++ s.drop (k + sub.length)
  | [], k, h => by
    unfold indexOf at h
    split at h
    · rename_i hp
      have := List.isPrefixOf_iff_prefix.mp hp
      simp at this
      simp [this]
    · simp at h
  | c :: t, k, h => by
    unfold indexOf at h
    split at h
    · rename_i hp
      simp only [Option.some.injEq] at h
      subst h
      have := List.prefix_iff_eq_append.mp (List.isPrefixOf_iff_prefix.mp hp)
      simpa using this.symm
    · cases hr : indexOf sub t with
      | none => simp [hr] at h
      | some r =>
        have ih := indexOf_split sub t r hr
        simp [hr] at h
        subst h
        simp only [List.take_succ_cons, List.cons_append, List.cons.injEq, true_and]
        rw [show r + 1 + sub.length = (r + sub.length) + 1 by omega, List.drop_succ_cons]
        exact ih

/-- The search `contains` decides whether `sub` is a contiguous part of `s`. -/
theorem contains_iff (s sub : Str) : contains s sub = true ↔ ∃ a b, s = a ++ sub ++ b := by
  constructor
  · intro h
    unfold contains at h
    cases hr : indexOf sub s with
    | none => simp [hr] at h
    | some k => exact ⟨_, _, indexOf_split sub s k hr⟩
  · rintro ⟨a, b, rfl⟩
    by_contra hc
    have hf : contains (a ++ sub ++ b) sub = false := Bool.eq_false_iff.mpr hc
    have := contains_false_drop _ _ a.length hf
    rw [List.append_assoc, List.drop_left] at this
    have hp : sub.isPrefixOf (sub ++ b) = true :=
      List.isPrefixOf_iff_prefix.mpr (List.prefix_append _ _)
    rw [hp] at this
    exact Bool.noConfusion this

/-- A literal none of whose proper suffixes is a prefix of it cannot start
inside a text `X` that does not contain it and end inside a following copy of
itself. -/
theorem no_straddle {p X R : Str} (hX : X ≠ []) (hp : p.isPrefixOf X = false)
    (hb : ∀ k, k < p.length → 0 < k → (p.drop k).isPrefixOf p = false) :
    p.isPrefixOf (X ++ (p ++ R)) = false := by
  by_contra hcon
  have hpre : p <+: X ++ (p ++ R) := by
    apply List.isPrefixOf_iff_prefix.mp
    simpa using hcon
  have hXpre : X <+: X ++ (p ++ R) := List.prefix_append _ _
  by_cases hlen : p.length ≤ X.length
  · have : p <+: X := List.prefix_of_prefix_length_le hpre hXpre hlen
    have := List.isPrefixOf_iff_prefix.mpr this
    simp [hp] at this
  · have hXp : X <+: p := List.prefix_of_prefix_length_le hXpre hpre (by omega)
    have hsplit : X ++ p.drop X.length = p := List.prefix_iff_eq_append.mp hXp
    have h1 : X ++ p.drop X.length <+: X ++ (p ++ R) := by rw [hsplit]; exact hpre
    have h2 : p.drop X.length <+: p ++ R := (List.prefix_append_right_inj X).mp h1
    have h3 : p.drop X.length <+: p :=
      List.prefix_of_prefix_length_le h2 (List.prefix_append _ _) (by simp)
    have hXpos : 0 < X.length := List.length_pos.mpr hX
    have := hb X.length (by omega) hXpos
    have h4 := List.isPrefixOf_iff_prefix.mpr h3
    simp [this] at h4

theorem pre_border : ∀ k, k < (str "<pre").length → 0 < k →
    ((str "<pre").drop k).isPrefixOf (str "<pre") = false := by decide

theorem close_border : ∀ k, k < (str "</code></pre>").length → 0 < k →
    ((str "</code></pre>").drop k).isPrefixOf (str "</code></pre>") = false := by decide

theorem indexOf_append_self (p : Str)
    (hb : ∀ k, k < p.length → 0 < k → (p.drop k).isPrefixOf p = false) (R : Str) :
    ∀ C : Str, contains C p = false → indexOf p (C ++ (p ++ R)) = some C.length
  | [], _ => by
    have hp : p.isPrefixOf (p ++ R) = true :=
      List.isPrefixOf_iff_prefix.mpr (List.prefix_append _ _)
    cases hpr : p ++ R with
    | nil => rw [hpr] at hp; simp [indexOf, hp]
    | cons a l => rw [hpr] at hp; simp [indexOf, hp]
  | c :: t, h => by
    have hc := contains_cons_false h
    have ih := indexOf_append_self p hb R t hc.2
    have hno := no_straddle (R := R) (List.cons_ne_nil c t) hc.1 hb
    simp only [List.cons_append] at hno ⊢
    simp [indexOf, hno, ih]

/-! ## Scanning for code blocks -/

theorem findAllGo_skip : ∀ (X R : Str) (off : Nat),
    findAllGo (X ++ R) off X.length = findAllGo R (off + X.length) 0
  | [], R, off => by simp
  | c :: t, R, off => by
    have ih := findAllGo_skip t R (off + 1)
    simp only [List.cons_append, List.length_cons]
    rw [findAllGo, ih]
    congr 1
    omega

theorem preCodeAt_none_of_pre {s : Str} (h : (str "<pre").isPrefixOf s = false) :
    preCodeAt s = none := by
  unfold preCodeAt
  simp [h]

theorem preCodeAt_none_of_close {s : Str} (h : contains s (str "</code></pre>") = false) :
    preCodeAt s = none := by
  unfold preCodeAt
  have hi : ∀ n, indexOf (str "</code></pre>") (s.drop n) = none := by
    intro n
    apply indexOf_none_of_forall
    intro k
    rw [List.drop_drop]
    exact contains_false_drop _ _ _ h
  split
  · split
    · rfl
    · split
      · split
        · rfl
        · rw [hi]
      · rfl
  · rfl

theorem findAllGo_nil : ∀ (s : Str) (off skip : Nat),
    (∀ n, preCodeAt (s.drop n) = none) → findAllGo s off skip = []
  | [], _, _, _ => by simp [findAllGo]
  | c :: t, off, skip + 1, h => by
    rw [findAllGo]
    exact findAllGo_nil t _ _ (fun n => by simpa using h (n + 1))
  | c :: t, off, 0, h => by
    have h0 := h 0
    simp only [List.drop_zero] at h0
    rw [findAllGo, h0]
    exact findAllGo_nil t _ _ (fun n => by simpa using h (n + 1))

theorem contains_drop_false : ∀ (s sub : Str) (n : Nat), contains s sub = false →
    contains (s.drop n) sub = false
  | s, sub, 0, h => by simpa using h
  | [], sub, n + 1, h => by simpa using h
  | c :: t, sub, n + 1, h => by
    simpa using contains_drop_false t sub n (contains_cons_false h).2

theorem findAllGo_no_pre (s : Str) (off skip : Nat) (h : contains s (str "<pre") = false) :
    findAllGo s off skip = [] :=
  findAllGo_nil s off skip (fun n => preCodeAt_none_of_pre (contains_false_drop _ _ n h))

theorem findAllGo_no_close (s : Str) (off skip : Nat)
    (h : contains s (str "</code></pre>") = false) : findAllGo s off skip = [] :=
  findAllGo_nil s off skip (fun n => preCodeAt_none_of_close (contains_drop_false _ _ n h))

theorem findAllGo_prefix (R : Str) : ∀ (P : Str) (off : Nat),
    contains P (str "<pre") = false →
    findAllGo (P ++ (str "<pre" ++ R)) off 0 = findAllGo (str "<pre" ++ R) (off + P.length) 0
  | [], off, _ => by simp
  | c :: t, off, h => by
    have hc := contains_cons_false h
    have ih := findAllGo_prefix R t (off + 1) hc.2
    have hno := no_straddle (R := R) (List.cons_ne_nil c t) hc.1 pre_border
    simp only [List.cons_append, List.length_cons] at hno ⊢
    rw [findAllGo, preCodeAt_none_of_pre hno, ih]
    rw [show off + 1 + t.length = off + (t.length + 1) by omega]

theorem blk_length (C : Str) : (blk C).length = 24 + C.length := by
  simp only [blk, str_open, str_close, List.length_append, List.length_cons, List.length_nil]
  omega

theorem blk_eq (C R : Str) : blk C ++ R
    = str "<pre" ++ ([62, 60, 99, 111, 100, 101, 62] ++ (C ++ (str "</code></pre>" ++ R))) := by
  simp [blk, str_open, str_pre]

theorem preCodeAt_blk {C : Str} (R : Str) (h : contains C (str "</code></pre>") = false) :
    preCodeAt (blk C ++ R) = some ⟨0, 24 + C.length, 11, 11 + C.length⟩ := by
  have hi := indexOf_append_self _ close_border R C h
  unfold preCodeAt
  simp only [blk, str_open, str_pre, str_code, List.append_assoc, List.cons_append,
    List.nil_append, List.isPrefixOf, List.drop_succ_cons, List.drop_zero, pastGt,
    beq_self_eq_true, Bool.and_self, if_true]
  simp [pastGt, List.isPrefixOf, hi]
  omega

theorem findAllGo_blk {C : Str} (R : Str) (off : Nat)
    (h : contains C (str "</code></pre>") = false) :
    findAllGo (blk C ++ R) off 0 =
      ⟨off, off + (24 + C.length), off + 11, off + (11 + C.length)⟩ ::
        findAllGo R (off + (24 + C.length)) 0 := by
  have hp := preCodeAt_blk R h
  have hl := blk_length C
  cases hb : blk C with
  | nil => rw [hb] at hl; simp at hl; omega
  | cons c t =>
    rw [hb] at hp hl
    simp only [List.cons_append] at hp ⊢
    rw [findAllGo, hp]
    simp only [List.length_cons] at hl
    have ht : t.length = 24 + C.length - 1 := by omega
    simp only
    rw [← ht, findAllGo_skip]
    congr 2
    omega

theorem findAllGo_prefix_blk {P C : Str} (R : Str) (off : Nat)
    (hP : contains P (str "<pre") = false) (hC : contains C (str "</code></pre>") = false) :
    findAllGo (P ++ (blk C ++ R)) off 0 =
      ⟨off + P.length, off + P.length + (24 + C.length), off + P.length + 11,
        off + P.length + (11 + C.length)⟩ ::
        findAllGo R (off + P.length + (24 + C.length)) 0 := by
  rw [blk_eq, findAllGo_prefix _ P off hP, ← blk_eq, findAllGo_blk R _ hC]

theorem take_drop_mid (X C Y : Str) (n k : Nat) (hn : n = X.length)
    (hk : k = X.length + C.length) : ((X ++ (C ++ Y)).take k).drop n = C := by
  subst hn hk
  rw [← List.append_assoc, List.take_left' (by simp)]
  simp

theorem drop_of_length (X Y : Str) (n : Nat) (hn : n = X.length) : (X ++ Y).drop n = Y := by
  subst hn
  simp

theorem take_of_length (X Y : Str) (n : Nat) (hn : n = X.length) : (X ++ Y).take n = X := by
  subst hn
  simp

theorem findAll_one_block {P C Q : Str}
    (hP : contains P (str "<pre") = false) (hQ : contains Q (str "<pre") = false)
    (hC : contains C (str "</code></pre>") = false) :
    findAllSubmatchIndex (P ++ (blk C ++ Q)) =
      [⟨P.length, P.length + (24 + C.length), P.length + 11, P.length + (11 + C.length)⟩] := by
  unfold findAllSubmatchIndex
  rw [findAllGo_prefix_blk Q 0 hP hC, findAllGo_no_pre Q _ 0 hQ]
  simp

theorem findAll_two_blocks {P A M B Q : Str}
    (hP : contains P (str "<pre") = false) (hM : contains M (str "<pre") = false)
    (hQ : contains Q (str "<pre") = false)
    (hA : contains A (str "</code></pre>") = false)
    (hB : contains B (str "</code></pre>") = false) :
    findAllSubmatchIndex (P ++ (blk A ++ (M ++ (blk B ++ Q)))) =
      [⟨P.length, P.length + (24 + A.length), P.length + 11, P.length + (11 + A.length)⟩,
       ⟨P.length + (24 + A.length) + M.length,
        P.length + (24 + A.length) + M.length + (24 + B.length),
        P.length + (24 + A.length) + M.length + 11,
        P.length + (24 + A.length) + M.length + (11 + B.length)⟩] := by
  unfold findAllSubmatchIndex
  rw [findAllGo_prefix_blk _ 0 hP hA, findAllGo_prefix_blk Q _ hM hB, findAllGo_no_pre Q _ 0 hQ]
  simp

/-! ## The claims -/

/-- C1. An answer body `P ++ "<pre><code>" ++ C ++ "</code></pre>" ++ Q` with one
code block (no `<pre` in `P` or `Q`, no `</code></pre>` in `C`), a code body that
is not empty once cleaned and trimmed, and prose of at most 150 bytes on either
side, is parsed into the single code `TrimSpace(cleanCode(C))`, the before-text
`TrimSpace(stripHTML(P))` and the after-text `TrimSpace(stripHTML(Q))`. -/
theorem parseAnswer_one_block (P C Q : Str)
    (hP : contains P (str "<pre") = false) (hQ : contains Q (str "<pre") = false)
    (hC : contains C (str "</code></pre>") = false)
    (hne : TrimSpace (cleanCode C) ≠ [])
    (hb : (TrimSpace (stripHTML P)).length ≤ 150)
    (ha : (TrimSpace (stripHTML Q)).length ≤ 150) :
    parseAnswer (P ++ str "<pre><code>" ++ C ++ str "</code></pre>" ++ Q) =
      some ([TrimSpace (cleanCode C)], TrimSpace (stripHTML P), TrimSpace (stripHTML Q)) := by
  have hshape : P ++ str "<pre><code>" ++ C ++ str "</code></pre>" ++ Q = P ++ (blk C ++ Q) := by
    simp [blk, List.append_assoc]
  rw [hshape]
  have hf := findAll_one_block hP hQ hC
  have hlen : (P ++ blk C).length = P.length + (24 + C.length) := by
    simp [blk_length]
  have hafter : (P ++ (blk C ++ Q)).drop (P.length + (24 + C.length)) = Q := by
    rw [← List.append_assoc]
    exact drop_of_length _ _ _ hlen.symm
  have hcode : ((P ++ (blk C ++ Q)).take (P.length + (11 + C.length))).drop (P.length + 11)
      = C := by
    have e : P ++ (blk C ++ Q) = (P ++ str "<pre><code>") ++ (C ++ (str "</code></pre>" ++ Q)) := by
      simp [blk, List.append_assoc]
    rw [e]
    apply take_drop_mid
    · simp [str_open]
    · simp [str_open]; omega
  rw [parseAnswer_cons hf (b := TrimSpace (stripHTML P)) (a := TrimSpace (stripHTML Q))]
  · simp only [codeBodies, List.map_cons, List.map_nil, hcode]
    simp [hne]
  · rw [take_of_length _ _ _ rfl]
    exact cutBefore_short hb
  · simp only [List.getLast_singleton, hafter]
    exact cutAfter_short ha

/-- Instance of C1: the body of the scenario in the specification. -/
theorem parseAnswer_one_block_witness :
    parseAnswer (str "<p>Try this:</p><pre><code>x := 1\nfmt.Println(x)</code></pre><p>That prints 1.</p>")
      = some ([str "x := 1\nfmt.Println(x)"], str "Try this:", str "That prints 1.") := by
  have h := parseAnswer_one_block (str "<p>Try this:</p>") (str "x := 1\nfmt.Println(x)")
    (str "<p>That prints 1.</p>") (by decide) (by decide) (by decide) (by decide) (by decide)
    (by decide)
  have e : str "<p>Try this:</p><pre><code>x := 1\nfmt.Println(x)</code></pre><p>That prints 1.</p>"
      = str "<p>Try this:</p>" ++ str "<pre><code>" ++ str "x := 1\nfmt.Println(x)" ++
        str "</code></pre>" ++ str "<p>That prints 1.</p>" := by decide
  rw [e, h]
  decide

/-- C4. When the pattern has no match in `html`, and in particular when `html`
lacks the substring `</code></pre>` or lacks the substring `<pre`, `parseAnswer`
returns no code and empty before- and after-texts. -/
theorem parseAnswer_no_block (html : Str)
    (h : findAllSubmatchIndex html = [] ∨ contains html (str "</code></pre>") = false ∨
      contains html (str "<pre") = false) :
    parseAnswer html = some ([], [], []) := by
  apply parseAnswer_nil
  rcases h with h | h | h
  · exact h
  · exact findAllGo_no_close html 0 0 h
  · exact findAllGo_no_pre html 0 0 h

/-- Instance of C4: an opened block that is never closed. -/
theorem parseAnswer_no_block_witness :
    parseAnswer (str "<p>see</p><pre><code>x &lt; y</code> and <b>more</b>") = some ([], [], []) :=
  parseAnswer_no_block _ (Or.inr (Or.inl (by decide)))

/-- C5. In `P ++ blk(A) ++ M ++ blk(B) ++ Q` (no `<pre` in `P`, `M`, `Q`; no
`</code></pre>` in `A`, `B`) the pattern matches each block separately, in
document order; the codes are the non-empty ones of `TrimSpace(cleanCode(A))`,
`TrimSpace(cleanCode(B))`, the before-text is the cut of the text of `P` and the
after-text the cut of the text of `Q`, neither depending on `A`, `M` or `B`. -/
theorem parseAnswer_two_blocks (P A M B Q : Str)
    (hP : contains P (str "<pre") = false) (hM : contains M (str "<pre") = false)
    (hQ : contains Q (str "<pre") = false)
    (hA : contains A (str "</code></pre>") = false)
    (hB : contains B (str "</code></pre>") = false) :
    ∃ b a, cutBefore (TrimSpace (stripHTML P)) = some b ∧
      cutAfter (TrimSpace (stripHTML Q)) = some a ∧
      (findAllSubmatchIndex (P ++ blk A ++ M ++ blk B ++ Q)).map (fun m => (m.m2, m.m3)) =
        [(P.length + 11, P.length + 11 + A.length),
         ((P ++ blk A ++ M).length + 11, (P ++ blk A ++ M).length + 11 + B.length)] ∧
      parseAnswer (P ++ blk A ++ M ++ blk B ++ Q) =
        some ([TrimSpace (cleanCode A), TrimSpace (cleanCode B)].filter (fun c => c ≠ []), b, a) := by
  obtain ⟨b, hb⟩ := cutBefore_total (TrimSpace (stripHTML P))
  obtain ⟨a, ha⟩ := cutAfter_total (TrimSpace (stripHTML Q))
  refine ⟨b, a, hb, ha, ?_⟩
  have hshape : P ++ blk A ++ M ++ blk B ++ Q = P ++ (blk A ++ (M ++ (blk B ++ Q))) := by
    simp [List.append_assoc]
  rw [hshape]
  have hf := findAll_two_blocks hP hM hQ hA hB
  refine ⟨?_, ?_⟩
  · rw [hf]
    simp [blk_length]
    omega
  have hcodeA : ((P ++ (blk A ++ (M ++ (blk B ++ Q)))).take (P.length + (11 + A.length))).drop
      (P.length + 11) = A := by
    have e : P ++ (blk A ++ (M ++ (blk B ++ Q))) =
        (P ++ str "<pre><code>") ++ (A ++ (str "</code></pre>" ++ (M ++ (blk B ++ Q)))) := by
      simp [blk, List.append_assoc]
    rw [e]
    apply take_drop_mid
    · simp [str_open]
    · simp [str_open]; omega
  have hcodeB : ((P ++ (blk A ++ (M ++ (blk B ++ Q)))).take
      (P.length + (24 + A.length) + M.length + (11 + B.length))).drop
      (P.length + (24 + A.length) + M.length + 11) = B := by
    have e : P ++ (blk A ++ (M ++ (blk B ++ Q))) =
        (P ++ blk A ++ M ++ str "<pre><code>") ++ (B ++ (str "</code></pre>" ++ Q)) := by
      simp [blk, List.append_assoc]
    rw [e]
    apply take_drop_mid
    · simp [str_open, blk_length]; omega
    · simp [str_open, blk_length]; omega
  have hafter : (P ++ (blk A ++ (M ++ (blk B ++ Q)))).drop
      (P.length + (24 + A.length) + M.length + (24 + B.length)) = Q := by
    have e : P ++ (blk A ++ (M ++ (blk B ++ Q))) = (P ++ blk A ++ M ++ blk B) ++ Q := by
      simp [List.append_assoc]
    rw [e]
    apply drop_of_length
    simp [blk_length]; omega
  rw [parseAnswer_cons hf (b := b) (a := a)]
  · simp only [codeBodies, List.map_cons, List.map_nil, hcodeA, hcodeB]
  · rw [take_of_length _ _ _ rfl]
    exact hb
  · simp only [List.getLast_cons_cons, List.getLast_singleton, hafter]
    exact ha

/-- Instance of C5: two adjacent one-line blocks. -/
theorem parseAnswer_two_blocks_witness :
    parseAnswer (str "<p>a</p><pre><code>x</code></pre>or<pre><code>y</code></pre><p>b</p>")
      = some ([str "x", str "y"], str "a", str "b") := by
  obtain ⟨b, a, hb, ha, _, h⟩ := parseAnswer_two_blocks (str "<p>a</p>") (str "x") (str "or")
    (str "y") (str "<p>b</p>") (by decide) (by decide) (by decide) (by decide) (by decide)
  have e : str "<p>a</p><pre><code>x</code></pre>or<pre><code>y</code></pre><p>b</p>"
      = str "<p>a</p>" ++ blk (str "x") ++ str "or" ++ blk (str "y") ++ str "<p>b</p>" := by
    decide
  have hb2 : cutBefore (TrimSpace (stripHTML (str "<p>a</p>"))) = some (str "a") := by decide
  have ha2 : cutAfter (TrimSpace (stripHTML (str "<p>b</p>"))) = some (str "b") := by decide
  rw [hb2] at hb
  rw [ha2] at ha
  cases hb
  cases ha
  rw [e, h]
  decide

/-- C6. On every input `parseAnswer` returns a result: none of its slice and index
expressions is out of range.  The same is shown for its parts on an arbitrary
text: the cut of the before-text (`sentences[len-2]`, `textBefore[len-150:]`),
the cut of the after-text (`textAfter[:150]`, `textAfter[:idx+1]`) and the loop
over the match offsets (`html[m2:m3]`).  `stripHTML` and `cleanCode` contain no
slice or index expression; they are total functions here as in the source. -/
theorem extraction_never_fails (html : Str) :
    (∃ r, parseAnswer html = some r) ∧
      (∀ T : Str, ∃ b, cutBefore T = some b) ∧
      (∀ U : Str, ∃ a, cutAfter U = some a) ∧
      (∃ cs, extractCodes html (findAllSubmatchIndex html) = some cs) :=
  ⟨parseAnswer_total html, cutBefore_total, cutAfter_total,
    ⟨_, extractCodes_eq html _ (fun _ hm => by have := findAll_bounds hm; omega)⟩⟩

theorem parseAnswer_sources (html : Str) :
    ∃ b a, cutBefore (beforeSource html) = some b ∧ cutAfter (afterSource html) = some a ∧
      parseAnswer html = some (codeBodies html (findAllSubmatchIndex html), b, a) := by
  cases h : findAllSubmatchIndex html with
  | nil =>
    refine ⟨[], [], ?_, ?_, ?_⟩
    · simp [beforeSource, h, cutBefore]
    · simp [afterSource, h, cutAfter]
    · simpa [codeBodies] using parseAnswer_nil h
  | cons m rest =>
    have hbs : beforeSource html = TrimSpace (stripHTML (html.take m.m0)) := by
      simp [beforeSource, h]
    have has : afterSource html = TrimSpace (stripHTML
        (html.drop ((m :: rest).getLast (List.cons_ne_nil _ _)).m1)) := by
      simp only [afterSource, h, List.getLast?_eq_getLast _ (List.cons_ne_nil m rest)]
    obtain ⟨b, hb⟩ := cutBefore_total (beforeSource html)
    obtain ⟨a, ha⟩ := cutAfter_total (afterSource html)
    refine ⟨b, a, hb, ha, ?_⟩
    rw [hbs] at hb
    rw [has] at ha
    exact parseAnswer_cons h hb ha

/-- C2 (counterexample). The inner text
`if a &lt; b &amp;&amp; c &gt; d` has no `<` and does not begin with `:`, and the
one-pass decoder of the claim turns it into `if a < b && c > d`; `parseAnswer`
returns the code `if a  d`: the tag removal that follows the decoding deletes
`< b && c >`.  Likewise `&amp;#39;` names the text `&#39;`, and `parseAnswer`
returns a quote: the pass for `&amp;` runs before the pass for `&#39;`. -/
theorem code_body_loses_decoded_brackets :
    contains (str "if a &lt; b &amp;&amp; c &gt; d") (str "<") = false ∧
      TrimSpace (specDecode (str "if a &lt; b &amp;&amp; c &gt; d")) = str "if a < b && c > d" ∧
      parseAnswer (str "<pre><code>if a &lt; b &amp;&amp; c &gt; d</code></pre>") =
        some ([str "if a  d"], [], []) ∧
      TrimSpace (specDecode (str "&amp;#39;")) = str "&#39;" ∧
      parseAnswer (str "<pre><code>&amp;#39;</code></pre>") = some ([str "'"], [], []) := by
  decide

/-- C3 (counterexample). A block whose body is empty gives an empty code sequence
with non-empty before- and after-texts. -/
theorem empty_codes_with_prose :
    parseAnswer (str "<p>hello</p><pre><code></code></pre>bye") =
      some ([], str "hello", str "bye") ∧ str "hello" ≠ [] ∧ str "bye" ≠ [] := by
  decide

/-- C3 (amended). If the code sequence returned by `parseAnswer` is empty, then
either the before-text and the after-text are both empty, or the pattern has
at least one match in `html` and the body of every match is empty once cleaned
and trimmed. -/
theorem empty_codes_prose (html b a : Str) (h : parseAnswer html = some ([], b, a)) :
    (b = [] ∧ a = []) ∨
      (findAllSubmatchIndex html ≠ [] ∧
        ∀ m ∈ findAllSubmatchIndex html,
          TrimSpace (cleanCode ((html.take m.m3).drop m.m2)) = []) := by
  cases hf : findAllSubmatchIndex html with
  | nil =>
    left
    rw [parseAnswer_nil hf] at h
    simp only [Option.some.injEq, Prod.mk.injEq] at h
    exact ⟨h.2.1.symm, h.2.2.symm⟩
  | cons m rest =>
    right
    refine ⟨List.cons_ne_nil _ _, ?_⟩
    obtain ⟨b', a', _, _, hp⟩ := parseAnswer_sources html
    rw [hp, hf] at h
    simp only [Option.some.injEq, Prod.mk.injEq] at h
    have hc := h.1
    unfold codeBodies at hc
    intro x hx
    have hall := List.filter_eq_nil_iff.mp hc
    have := hall (TrimSpace (cleanCode ((html.take x.m3).drop x.m2)))
      (List.mem_map.mpr ⟨x, hx, rfl⟩)
    simpa using this

/-- Instance of the amended C3: a body without any block. -/
theorem empty_codes_prose_witness :
    ([] = ([] : Str) ∧ [] = ([] : Str)) ∨
      (findAllSubmatchIndex (str "<p>no code</p>") ≠ [] ∧
        ∀ m ∈ findAllSubmatchIndex (str "<p>no code</p>"),
          TrimSpace (cleanCode (((str "<p>no code</p>").take m.m3).drop m.m2)) = []) :=
  empty_codes_prose (str "<p>no code</p>") [] [] (by decide)

/-- C7. With at least one block and `T` the decoded, trimmed text before the first
one: if `len(T) ≤ 150` the before-text is `T`; if `len(T) > 150` and splitting
`T` on `.` gives at least two pieces, it is the second-to-last piece followed by
`.` (so it ends with a period); if `len(T) > 150` and `T` has no period, it is the
last 150 bytes of `T`.  Lengths are those `len` measures. -/
theorem before_text_law (html : Str) (m : Loc) (rest : List Loc) (T : Str)
    (h : findAllSubmatchIndex html = m :: rest)
    (hT : T = TrimSpace (stripHTML (html.take m.m0))) :
    ∃ codes before after, parseAnswer html = some (codes, before, after) ∧
      (T.length ≤ 150 → before = T) ∧
      (150 < T.length → 2 ≤ (split T 46).length →
        ∃ piece, (split T 46)[(split T 46).length - 2]? = some piece ∧
          before = piece ++ str "." ∧ before.getLast? = some 46) ∧
      (150 < T.length → 46 ∉ T →
        before = T.drop (T.length - 150) ∧ before.length = 150) := by
  have hsrc : beforeSource html = T := by simp [beforeSource, h, hT]
  obtain ⟨b, a, hb, _, hp⟩ := parseAnswer_sources html
  rw [hsrc] at hb
  refine ⟨_, b, a, hp, ?_, ?_, ?_⟩
  · intro hs
    rw [cutBefore_short hs] at hb
    exact (Option.some.inj hb).symm
  · intro hl h2
    obtain ⟨piece, hpiece, hcut⟩ := cutBefore_sentence hl (by omega)
    rw [hcut] at hb
    have hbe := (Option.some.inj hb).symm
    refine ⟨piece, hpiece, by rw [hbe, str_dot], ?_⟩
    rw [hbe]
    simp
  · intro hl hno
    rw [cutBefore_tail hl ((split_length_one_iff _ _).mpr hno)] at hb
    have hbe := (Option.some.inj hb).symm
    refine ⟨hbe, ?_⟩
    rw [hbe]
    simp
    omega

/-- Instance of C7: 168 bytes of prose in three sentences before the block; the
before-text is the second-to-last sentence with its period (and the blank that
follows the first period). -/
theorem before_text_law_witness :
    ∃ codes after,
      parseAnswer (str "<p>" ++ List.replicate 100 97 ++ str ". " ++ List.replicate 60 98 ++
          str ". See:</p><pre><code>x</code></pre>")
        = some (codes, 32 :: List.replicate 60 98 ++ [46], after) := by
  obtain ⟨codes, before, after, hp, _, h2, _⟩ :=
    before_text_law
      (str "<p>" ++ List.replicate 100 97 ++ str ". " ++ List.replicate 60 98 ++
        str ". See:</p><pre><code>x</code></pre>")
      ⟨175, 200, 186, 187⟩ []
      (List.replicate 100 97 ++ str ". " ++ List.replicate 60 98 ++ str ". See:")
      (by set_option maxRecDepth 100000 in decide)
      (by set_option maxRecDepth 100000 in decide)
  obtain ⟨piece, hpiece, hbe, _⟩ := h2 (by set_option maxRecDepth 100000 in decide)
    (by set_option maxRecDepth 100000 in decide)
  have hpc : (split (List.replicate 100 97 ++ str ". " ++ List.replicate 60 98 ++ str ". See:") 46)[
      (split (List.replicate 100 97 ++ str ". " ++ List.replicate 60 98 ++ str ". See:") 46).length
        - 2]? = some (32 :: List.replicate 60 98) := by
    set_option maxRecDepth 100000 in decide
  rw [hpc] at hpiece
  cases hpiece
  refine ⟨codes, after, ?_⟩
  rw [hp, hbe, str_dot]

/-- C8 (evaluation at the failing input). The text after the block is a period
followed by 150 letters, so a period occurs among its first 150 bytes; the
after-text is not cut at that period: it is the first 150 bytes and ends with a
letter. -/
theorem after_text_period_at_start :
    afterSource (str "<pre><code>x</code></pre>." ++ List.replicate 150 97)
        = 46 :: List.replicate 150 97 ∧
      46 ∈ (afterSource (str "<pre><code>x</code></pre>." ++ List.replicate 150 97)).take 150 ∧
      lastIndex ((afterSource (str "<pre><code>x</code></pre>." ++ List.replicate 150 97)).take 150)
        (str ".") = 0 ∧
      parseAnswer (str "<pre><code>x</code></pre>." ++ List.replicate 150 97) =
        some ([str "x"], [], 46 :: List.replicate 149 97) := by
  set_option maxRecDepth 100000 in decide

/-- C9. On every input the after-text has at most 150 bytes and is a prefix of the
decoded, trimmed text that follows the last block. -/
theorem after_text_length (html : Str) :
    ∃ codes before after, parseAnswer html = some (codes, before, after) ∧
      after.length ≤ 150 ∧ after <+: afterSource html := by
  obtain ⟨b, a, _, ha, hp⟩ := parseAnswer_sources html
  refine ⟨_, b, a, hp, ?_⟩
  by_cases hs : (afterSource html).length ≤ 150
  · rw [cutAfter_short hs] at ha
    cases ha
    exact ⟨hs, List.prefix_refl _⟩
  · have hl : 150 < (afterSource html).length := by omega
    rw [cutAfter_long hl] at ha
    have hb := lastIndex_bounds [46] (by simp) ((afterSource html).take 150)
    have hlen : ((afterSource html).take 150).length = 150 := by simp; omega
    cases ha
    split
    · refine ⟨?_, List.take_prefix _ _⟩
      simp only [List.length_take]
      omega
    · refine ⟨?_, List.take_prefix _ _⟩
      simp

/-! ## Tags -/

theorem hasTag_iff : ∀ t : Str, hasTag t = true ↔ ∃ a b c, t = a ++ 60 :: (b ++ 62 :: c)
  | [] => by simp [hasTag]
  | x :: t => by
    have ih := hasTag_iff t
    constructor
    · intro h
      simp only [hasTag, Bool.or_eq_true, decide_eq_true_eq] at h
      rcases h with ⟨hx, hm⟩ | h
      · obtain ⟨b, c, hbc⟩ := List.append_of_mem hm
        exact ⟨[], b, c, by simp [hx, hbc]⟩
      · obtain ⟨a, b, c, h⟩ := ih.mp h
        exact ⟨x :: a, b, c, by simp [h]⟩
    · rintro ⟨a, b, c, h⟩
      simp only [hasTag, Bool.or_eq_true, decide_eq_true_eq]
      cases a with
      | nil =>
        simp only [List.nil_append, List.cons.injEq] at h
        left
        exact ⟨h.1, by rw [h.2]; simp⟩
      | cons y a =>
        simp only [List.cons_append, List.cons.injEq] at h
        right
        exact ih.mpr ⟨a, b, c, h.2⟩

theorem hasTag_of_sublist {s t : Str} (h : List.Sublist s t) (ht : hasTag t = false) :
    hasTag s = false := by
  induction h with
  | slnil => rfl
  | cons a _ ih =>
    simp only [hasTag, Bool.or_eq_false_iff] at ht
    exact ih ht.2
  | cons₂ a hs ih =>
    simp only [hasTag, Bool.or_eq_false_iff, decide_eq_false_iff_not] at ht ⊢
    exact ⟨fun hc => ht.1 ⟨hc.1, hs.subset hc.2⟩, ih ht.2⟩

theorem stripTagsGo_sublist : ∀ (s : Str) (st : Bool), List.Sublist (stripTagsGo s st) s
  | [], _ => by simp [stripTagsGo]
  | c :: t, true => by
    unfold stripTagsGo
    split
    · exact (stripTagsGo_sublist t false).trans (List.sublist_cons_self _ _)
    · exact (stripTagsGo_sublist t true).trans (List.sublist_cons_self _ _)
  | c :: t, false => by
    unfold stripTagsGo
    split
    · exact (stripTagsGo_sublist t true).trans (List.sublist_cons_self _ _)
    · exact (stripTagsGo_sublist t false).cons₂ c

theorem hasTag_stripTagsGo : ∀ (s : Str) (st : Bool), hasTag (stripTagsGo s st) = false
  | [], _ => by simp [stripTagsGo, hasTag]
  | c :: t, true => by
    unfold stripTagsGo
    split
    · exact hasTag_stripTagsGo t false
    · exact hasTag_stripTagsGo t true
  | c :: t, false => by
    unfold stripTagsGo
    split
    · exact hasTag_stripTagsGo t true
    · rename_i hc
      simp only [hasTag, Bool.or_eq_false_iff, decide_eq_false_iff_not]
      refine ⟨fun h => hc ⟨h.1, (stripTagsGo_sublist t false).subset h.2⟩, ?_⟩
      exact hasTag_stripTagsGo t false

theorem trimLeftN_sublist : ∀ (n : Nat) (s : Str), List.Sublist (trimLeftN n s) s
  | 0, s => by simp [trimLeftN]
  | n + 1, s => by
    unfold trimLeftN
    split
    · exact (trimLeftN_sublist n _).trans (List.drop_sublist _ _)
    · exact List.Sublist.refl _

theorem trimRightN_sublist : ∀ (n : Nat) (s : Str), List.Sublist (trimRightN n s) s
  | 0, s => by simp [trimRightN]
  | n + 1, s => by
    unfold trimRightN
    split
    · exact (trimRightN_sublist n _).trans (List.take_sublist _ _)
    · exact List.Sublist.refl _

theorem TrimSpace_sublist (s : Str) : List.Sublist (TrimSpace s) s :=
  (trimRightN_sublist _ _).trans (trimLeftN_sublist _ _)

theorem join_split : ∀ (s : Str) (sep : Nat), join (split s sep) [sep] = s
  | [], sep => by simp [split, join]
  | c :: t, sep => by
    have ih := join_split t sep
    have hp := split_length_pos t sep
    unfold split
    by_cases hc : c = sep
    · subst hc
      rw [if_pos rfl]
      cases hs : split t c with
      | nil => simp [hs] at hp
      | cons l ls =>
        rw [hs] at ih
        simp [join, ih]
    · rw [if_neg hc]
      cases hs : split t sep with
      | nil => simp [hs] at hp
      | cons l ls =>
        rw [hs] at ih
        cases ls with
        | nil => simpa [join] using ih
        | cons l2 ls2 =>
          simp only [join] at ih ⊢
          simp [← ih]

theorem join_cons_sublist (a : Str) (xs : List Str) (sep : Str) : List.Sublist (join xs sep) (join (a :: xs) sep) := by
  cases xs with
  | nil => simp [join]
  | cons b r =>
    simp only [join]
    rw [List.append_assoc]
    exact (List.sublist_append_right _ _).trans (List.sublist_append_right _ _)

theorem join_filter_map_sublist (f : Str → Str) (hf : ∀ l, List.Sublist (f l) l) (sep : Str) :
    ∀ xs : List Str, List.Sublist (join ((xs.map f).filter (fun l => l ≠ [])) sep) (join xs sep)
  | [] => by simp [join]
  | a :: xs => by
    have ih := join_filter_map_sublist f hf sep xs
    simp only [List.map_cons, List.filter_cons]
    split
    · cases hr : (xs.map f).filter (fun l => l ≠ []) with
      | nil =>
        simp only [join]
        cases xs with
        | nil => simpa [join] using hf a
        | cons b r =>
          simp only [join]
          rw [List.append_assoc]
          exact (hf a).trans (List.sublist_append_left _ _)
      | cons y ys =>
        rw [hr] at ih
        cases xs with
        | nil => simp at hr
        | cons b r =>
          simp only [join]
          rw [List.append_assoc, List.append_assoc]
          exact (hf a).append ((List.Sublist.refl sep).append ih)
    · exact ih.trans (join_cons_sublist a xs sep)

theorem stripHTML_hasTag (s : Str) : hasTag (stripHTML s) = false := by
  unfold stripHTML
  simp only [str_nl]
  apply hasTag_of_sublist (join_filter_map_sublist TrimSpace TrimSpace_sublist [10] _)
  rw [join_split]
  exact hasTag_stripTagsGo _ _

theorem cleanCode_hasTag (s : Str) : hasTag (cleanCode s) = false :=
  hasTag_stripTagsGo _ _

/-- C10. The output of `stripHTML` has no `<` that is followed later by a `>`, so
no part of it matches `<[^>]*>`; the same holds for the output of `cleanCode` and
for every code body returned by `parseAnswer`. -/
theorem tag_free_output (s : Str) :
    hasTag (stripHTML s) = false ∧ hasTag (cleanCode s) = false ∧
      ∃ codes before after, parseAnswer s = some (codes, before, after) ∧
        codes.all (fun c => !hasTag c) = true := by
  refine ⟨stripHTML_hasTag s, cleanCode_hasTag s, ?_⟩
  obtain ⟨b, a, _, _, hp⟩ := parseAnswer_sources s
  refine ⟨_, b, a, hp, ?_⟩
  rw [List.all_eq_true]
  intro c hc
  unfold codeBodies at hc
  obtain ⟨hm, _⟩ := List.mem_filter.mp hc
  obtain ⟨m, _, rfl⟩ := List.mem_map.mp hm
  simp only [Bool.not_eq_true']
  exact hasTag_of_sublist (TrimSpace_sublist _) (cleanCode_hasTag _)

/-! ## Rendering -/

theorem fullHeader_eq (q : Question) (ans : Answer) (answerNum total : Int) :
    ∃ pre post, fullHeader q ans answerNum total =
      (pre ++ (str "Answer " ++ fmtInt answerNum ++ str "/" ++ fmtInt total) ++ post, false) := by
  have key : ∀ X : Str, ∃ pre post : Str,
      str "Question: " ++ q.Title ++ str "\n" ++
        (str "Score: " ++ fmtInt q.Score ++ str " | Answers: " ++ fmtInt q.AnswerCount ++ str "\n") ++
        (List.replicate 70 45 ++ str "\n") ++ (str "\n" ++ X ++ str "\n\n") ++
        (List.replicate 70 61 ++ str "\n") ++
        (str "Answer " ++ fmtInt answerNum ++ str "/" ++ fmtInt total ++ str " | Score: " ++
          fmtInt ans.Score ++ (if ans.IsAccepted then str " [ACCEPTED]" else []) ++ str "\n") ++
        (List.replicate 70 45 ++ str "\n")
      = pre ++ (str "Answer " ++ fmtInt answerNum ++ str "/" ++ fmtInt total) ++ post := by
    intro X
    refine ⟨str "Question: " ++ q.Title ++ str "\n" ++
        (str "Score: " ++ fmtInt q.Score ++ str " | Answers: " ++ fmtInt q.AnswerCount ++ str "\n") ++
        (List.replicate 70 45 ++ str "\n") ++ (str "\n" ++ X ++ str "\n\n") ++
        (List.replicate 70 61 ++ str "\n"),
      str " | Score: " ++ fmtInt ans.Score ++ (if ans.IsAccepted then str " [ACCEPTED]" else []) ++
        str "\n" ++ (List.replicate 70 45 ++ str "\n"), ?_⟩
    simp only [List.append_assoc]
  unfold fullHeader
  by_cases h : (stripHTML q.Body).length > 300
  · have hs : slice? (stripHTML q.Body) 0 300 = some ((stripHTML q.Body).take 300) := by
      have := @slice?_zero (stripHTML q.Body) 300 (by omega)
      simpa using this
    obtain ⟨pre, post, hk⟩ := key ((stripHTML q.Body).take 300 ++ str "...")
    simp only [if_pos h, hs, Option.map_some']
    exact ⟨pre, post, by rw [hk]⟩
  · obtain ⟨pre, post, hk⟩ := key (stripHTML q.Body)
    simp only [if_neg h]
    exact ⟨pre, post, by rw [hk]⟩

theorem bodyPart_total (verbosity : Int) (code : List Str) (body : Str) :
    ∃ o, bodyPart verbosity code body = some o := by
  unfold bodyPart
  split
  · exact ⟨_, rfl⟩
  · simp only
    split
    · rename_i h
      have hs : slice? (stripHTML body) 0 200 = some ((stripHTML body).take 200) := by
        have := @slice?_zero (stripHTML body) 200 (by omega)
        simpa using this
      exact ⟨_, by rw [hs]; rfl⟩
    · exact ⟨_, rfl⟩

theorem renderAnswer_eq (verbosity : Int) (q : Question) (ans : Answer) (answerNum total : Int)
    {code : List Str} {tb ta body : Str} (hp : parseAnswer ans.Body = some (code, tb, ta))
    (ho : bodyPart verbosity code ans.Body = some body) :
    renderAnswer verbosity q ans answerNum total =
      ((if verbosity ≥ 2 then (fullHeader q ans answerNum total).1 else []) ++
        (if verbosity ≥ 1 ∧ tb.length > 0 then
          tb ++ str "\n" ++ (if code.length > 0 then str "\n" else []) else []) ++
        body ++
        (if verbosity ≥ 1 ∧ ta.length > 0 then
          (if code.length > 0 then str "\n" else []) ++ ta ++ str "\n" else []) ++
        (if verbosity ≥ 2 then str "\n" ++ q.Link ++ str "\n" else []), false) := by
  obtain ⟨pre, post, hh⟩ := fullHeader_eq q ans answerNum total
  have e1 : (if verbosity ≥ 2 then fullHeader q ans answerNum total else ([], false)) =
      ((if verbosity ≥ 2 then (fullHeader q ans answerNum total).1 else []), false) := by
    split
    · rw [hh]
    · rfl
  unfold renderAnswer
  rw [e1]
  simp only [hp, ho]
  split_ifs <;> simp only [List.append_assoc, List.nil_append, List.append_nil]

theorem renderAnswer_ok (verbosity : Int) (q : Question) (ans : Answer) (answerNum total : Int) :
    (renderAnswer verbosity q ans answerNum total).2 = false := by
  obtain ⟨⟨code, tb, ta⟩, hp⟩ := parseAnswer_total ans.Body
  obtain ⟨o, ho⟩ := bodyPart_total verbosity code ans.Body
  rw [renderAnswer_eq verbosity q ans answerNum total hp ho]

theorem mid_append (pre H post R1 R2 R3 R4 : Str) :
    ∃ p q, pre ++ H ++ post ++ R1 ++ R2 ++ R3 ++ R4 = p ++ H ++ q :=
  ⟨pre, post ++ R1 ++ R2 ++ R3 ++ R4, by simp only [List.append_assoc]⟩

theorem renderAnswer_header (verbosity : Int) (q : Question) (ans : Answer) (answerNum total : Int)
    (hv : 2 ≤ verbosity) :
    ∃ pre post, (renderAnswer verbosity q ans answerNum total).1 =
      pre ++ (str "Answer " ++ fmtInt answerNum ++ str "/" ++ fmtInt total) ++ post := by
  obtain ⟨pre, post, hh⟩ := fullHeader_eq q ans answerNum total
  obtain ⟨⟨code, tb, ta⟩, hp⟩ := parseAnswer_total ans.Body
  obtain ⟨o, ho⟩ := bodyPart_total verbosity code ans.Body
  have hv' : verbosity ≥ 2 := hv
  rw [renderAnswer_eq verbosity q ans answerNum total hp ho]
  simp only [if_pos hv', hh]
  exact mid_append _ _ _ _ _ _ _

theorem wrapInt_of_range {x : Int} (h1 : -9223372036854775808 ≤ x) (h2 : x < 9223372036854775808) :
    wrapInt x = x := by
  unfold wrapInt
  omega

theorem lookup_high (k : Int) (answers : List Answer) (hne : answers ≠ [])
    (hlen : (answers.length : Int) < 9223372036854775808) (hk : 1 ≤ k) :
    ∃ ans, answers[(min k (answers.length : Int)).toNat - 1]? = some ans ∧
      (if k > (answers.length : Int) then (answers.length : Int) else k)
        = min k (answers.length : Int) ∧
      index? answers (wrapInt ((if k > (answers.length : Int) then (answers.length : Int)
        else k) - 1)) = some ans := by
  have hpos : 0 < answers.length := List.length_pos.mpr hne
  have hclamp : (if k > (answers.length : Int) then (answers.length : Int) else k)
      = min k (answers.length : Int) := by
    split
    · rw [min_eq_right (by omega)]
    · rw [min_eq_left (by omega)]
  have hlt : (min k (answers.length : Int)).toNat - 1 < answers.length := by omega
  refine ⟨answers.get ⟨_, hlt⟩, by simp, hclamp, ?_⟩
  have hidx : wrapInt (min k (answers.length : Int) - 1)
      = (((min k (answers.length : Int)).toNat - 1 : Nat) : Int) := by
    rw [wrapInt_of_range (by omega) (by omega)]
    omega
  rw [hclamp, hidx, index?_of_lt hlt]

theorem showAnswer_select (getAnswers : Int → Except Str (List Answer)) (verbosity : Int)
    (q : Question) (k : Int) (answers : List Answer)
    (hc : q.AnswerCount ≠ 0) (hg : getAnswers q.QuestionID = .ok answers) (hne : answers ≠ [])
    (hlen : (answers.length : Int) < 9223372036854775808) (hk : 1 ≤ k) :
    ∃ ans, answers[(min k (answers.length : Int)).toNat - 1]? = some ans ∧
      showAnswer getAnswers verbosity q k =
        ⟨[q.QuestionID],
          (renderAnswer verbosity q ans (min k (answers.length : Int)) answers.length).1, false⟩ := by
  have hpos : 0 < answers.length := List.length_pos.mpr hne
  obtain ⟨ans, hsel, hclamp, hidx⟩ := lookup_high k answers hne hlen hk
  refine ⟨ans, hsel, ?_⟩
  unfold showAnswer
  rw [if_neg hc]
  simp only [hg]
  rw [if_neg (by omega)]
  rw [hclamp] at hidx
  simp only [hclamp, hidx, renderAnswer_ok]

theorem showAnswer_low_index (getAnswers : Int → Except Str (List Answer)) (verbosity : Int)
    (q : Question) (k : Int) (answers : List Answer)
    (hc : q.AnswerCount ≠ 0) (hg : getAnswers q.QuestionID = .ok answers) (hne : answers ≠ [])
    (hlen : (answers.length : Int) < 9223372036854775808)
    (hmin : -9223372036854775808 ≤ k) (hk : k ≤ 0) :
    index? answers (wrapInt ((if k > (answers.length : Int) then (answers.length : Int) else k) - 1))
        = none ∧
      showAnswer getAnswers verbosity q k = ⟨[q.QuestionID], [], true⟩ := by
  have hpos : 0 < answers.length := List.length_pos.mpr hne
  have hclamp : (if k > (answers.length : Int) then (answers.length : Int) else k) = k := by
    rw [if_neg (by omega)]
  have hidx : index? answers (wrapInt (k - 1)) = none := by
    unfold index?
    split
    · rename_i h0
      have : answers.length ≤ (wrapInt (k - 1)).toNat := by
        unfold wrapInt at h0 ⊢
        omega
      exact List.getElem?_eq_none this
    · rfl
  refine ⟨by rw [hclamp]; exact hidx, ?_⟩
  unfold showAnswer
  rw [if_neg hc]
  simp only [hg]
  rw [if_neg (by omega)]
  simp only [hclamp, hidx]

theorem printCodes_eq : ∀ (code : List Str) (i : Nat), code ≠ [] →
    printCodes (i + code.length) i code = join code (str "\n\n") ++ str "\n"
  | [], _, h => absurd rfl h
  | [c], i, _ => by
    simp only [printCodes, join, List.length_cons, List.length_nil]
    rw [if_neg (by push_cast; omega)]
    simp
  | c :: d :: r, i, _ => by
    have ih := printCodes_eq (d :: r) (i + 1) (List.cons_ne_nil _ _)
    have hn : i + (c :: d :: r).length = i + 1 + (d :: r).length := by
      simp only [List.length_cons]; omega
    rw [printCodes, if_pos (by simp only [List.length_cons]; push_cast; omega), hn, ih]
    simp only [join, List.append_assoc]
    have : str "\n\n" = str "\n" ++ str "\n" := by decide
    rw [this]
    simp only [List.append_assoc]

theorem bodyPart_codes {code : List Str} (verbosity : Int) (body : Str) (h : code ≠ []) :
    bodyPart verbosity code body = some (join code (str "\n\n") ++ str "\n") := by
  have hpos : 0 < code.length := List.length_pos.mpr h
  unfold bodyPart
  rw [if_pos hpos]
  have := printCodes_eq code 0 h
  simp only [Nat.zero_add] at this
  rw [this]

theorem bodyPart_fallback (verbosity : Int) (body : Str) :
    bodyPart verbosity [] body = some (
      if verbosity = 0 ∧ (stripHTML body).length > 200 then
        (stripHTML body).take 200 ++ str "..." ++ str "\n"
      else stripHTML body ++ str "\n") := by
  unfold bodyPart
  rw [if_neg (by simp)]
  simp only
  split
  · rename_i h
    have hs : slice? (stripHTML body) 0 200 = some ((stripHTML body).take 200) := by
      have := @slice?_zero (stripHTML body) 200 (by omega)
      simpa using this
    rw [hs]
    rfl
  · rfl

/-- C13. If the question's answer count is 0, or the retrieval returns an error,
or it returns an empty list, `showAnswer` writes the line `no answers` and
nothing else and does not panic; with an answer count of 0 `getAnswers` is not
called. -/
theorem showAnswer_no_answers (getAnswers : Int → Except Str (List Answer)) (verbosity : Int)
    (q : Question) (answerNum : Int)
    (h : q.AnswerCount = 0 ∨ (∃ e, getAnswers q.QuestionID = .error e) ∨
      getAnswers q.QuestionID = .ok []) :
    (showAnswer getAnswers verbosity q answerNum).out = str "no answers\n" ∧
      (showAnswer getAnswers verbosity q answerNum).panicked = false ∧
      (q.AnswerCount = 0 → (showAnswer getAnswers verbosity q answerNum).fetched = []) := by
  unfold showAnswer
  by_cases hc : q.AnswerCount = 0
  · simp [hc]
  · rw [if_neg hc]
    rcases h with h | ⟨e, h⟩ | h
    · exact absurd h hc
    · simp [h, hc]
    · simp [h, hc]

/-- Instance of C13: a question without answers, at verbosity 2; nothing is fetched. -/
theorem showAnswer_no_answers_witness :
    (showAnswer sampleFetch 2 sampleUnanswered 1).out = str "no answers\n" ∧
      (showAnswer sampleFetch 2 sampleUnanswered 1).panicked = false ∧
      (showAnswer sampleFetch 2 sampleUnanswered 1).fetched = [] := by
  have h := showAnswer_no_answers sampleFetch 2 sampleUnanswered 1
    (Or.inl rfl)
  exact ⟨h.1, h.2.1, h.2.2 rfl⟩

/-- C14. With a retrieved list of `n ≥ 1` answers and a requested index `k ≥ 1`,
`showAnswer` renders the answer at position `min(k, n)` (1-based), and at
verbosity 2 and above its output contains the header text `Answer min(k,n)/n`. -/
theorem answer_index_clamped (getAnswers : Int → Except Str (List Answer)) (verbosity : Int)
    (q : Question) (k : Int) (answers : List Answer)
    (hc : q.AnswerCount ≠ 0) (hg : getAnswers q.QuestionID = .ok answers) (hne : answers ≠ [])
    (hlen : (answers.length : Int) < 9223372036854775808) (hk : 1 ≤ k) :
    ∃ ans, answers[(min k (answers.length : Int)).toNat - 1]? = some ans ∧
      showAnswer getAnswers verbosity q k =
        ⟨[q.QuestionID],
          (renderAnswer verbosity q ans (min k (answers.length : Int)) answers.length).1, false⟩ ∧
      (2 ≤ verbosity → ∃ pre post, (showAnswer getAnswers verbosity q k).out =
        pre ++ (str "Answer " ++ fmtInt (min k (answers.length : Int)) ++ str "/" ++
          fmtInt answers.length) ++ post) := by
  obtain ⟨ans, hsel, hrun⟩ := showAnswer_select getAnswers verbosity q k answers hc hg hne hlen hk
  refine ⟨ans, hsel, hrun, ?_⟩
  intro hv
  rw [hrun]
  exact renderAnswer_header verbosity q ans _ _ hv

/-- Instance of C14: index 5 requested with 2 answers; the second answer is rendered. -/
theorem answer_index_clamped_witness :
    showAnswer sampleFetch 0 sampleQuestion 5 = ⟨[42], str "no code at all\n", false⟩ ∧
      ∃ pre post, (showAnswer sampleFetch 2 sampleQuestion 5).out =
        pre ++ str "Answer 2/2" ++ post := by
  obtain ⟨ans, hsel, hrun, _⟩ := answer_index_clamped sampleFetch 0 sampleQuestion 5
    [sampleAnswerCode, sampleAnswerProse] (by decide) rfl (by decide) (by decide) (by decide)
  obtain ⟨ans2, _, _, hhead⟩ := answer_index_clamped sampleFetch 2 sampleQuestion 5
    [sampleAnswerCode, sampleAnswerProse] (by decide) rfl (by decide) (by decide) (by decide)
  have h2 : ([sampleAnswerCode, sampleAnswerProse] : List Answer)[
      (min (5 : Int) (([sampleAnswerCode, sampleAnswerProse] : List Answer).length : Int)).toNat - 1]?
      = some sampleAnswerProse := by decide
  rw [h2] at hsel
  cases hsel
  refine ⟨?_, ?_⟩
  · rw [hrun]
    decide
  · obtain ⟨pre, post, hp⟩ := hhead (by decide)
    have e : str "Answer " ++ fmtInt (min (5 : Int)
        (([sampleAnswerCode, sampleAnswerProse] : List Answer).length : Int)) ++ str "/" ++
        fmtInt (([sampleAnswerCode, sampleAnswerProse] : List Answer).length : Int)
        = str "Answer 2/2" := by decide
    rw [e] at hp
    exact ⟨pre, post, hp⟩

theorem mid_of_five (a b c d e : Str) : ∃ pre post, a ++ b ++ c ++ d ++ e = pre ++ c ++ post :=
  ⟨a ++ b, d ++ e, by simp only [List.append_assoc]⟩

/-- C15. For a selected answer without code and `t = stripHTML(body)`: at verbosity 0
the body part is `t` and a newline when `len(t) ≤ 200`, otherwise the first 200
bytes of `t`, then `...` and a newline, and it is the whole output; at every
other verbosity the body part is `t` and a newline, never cut. -/
theorem fallback_body (q : Question) (ans : Answer) (answerNum total : Int) (tb ta : Str)
    (hp : parseAnswer ans.Body = some ([], tb, ta)) :
    bodyPart 0 [] ans.Body = some (
        if (stripHTML ans.Body).length ≤ 200 then stripHTML ans.Body ++ str "\n"
        else (stripHTML ans.Body).take 200 ++ str "..." ++ str "\n") ∧
      renderAnswer 0 q ans answerNum total = (
        if (stripHTML ans.Body).length ≤ 200 then stripHTML ans.Body ++ str "\n"
        else (stripHTML ans.Body).take 200 ++ str "..." ++ str "\n", false) ∧
      (∀ v : Int, v ≠ 0 → bodyPart v [] ans.Body = some (stripHTML ans.Body ++ str "\n") ∧
        ∃ pre post, (renderAnswer v q ans answerNum total).1 =
          pre ++ (stripHTML ans.Body ++ str "\n") ++ post) := by
  have h0 : bodyPart 0 [] ans.Body = some (
      if (stripHTML ans.Body).length ≤ 200 then stripHTML ans.Body ++ str "\n"
      else (stripHTML ans.Body).take 200 ++ str "..." ++ str "\n") := by
    rw [bodyPart_fallback]
    by_cases h : (stripHTML ans.Body).length ≤ 200
    · rw [if_neg (by omega), if_pos h]
    · rw [if_pos ⟨rfl, by omega⟩, if_neg h]
  refine ⟨h0, ?_, ?_⟩
  · rw [renderAnswer_eq 0 q ans answerNum total hp h0]
    simp
  · intro v hv
    have hb : bodyPart v [] ans.Body = some (stripHTML ans.Body ++ str "\n") := by
      rw [bodyPart_fallback, if_neg (fun h => hv h.1)]
    refine ⟨hb, ?_⟩
    rw [renderAnswer_eq v q ans answerNum total hp hb]
    exact mid_of_five _ _ _ _ _

/-- Instance of C15: a plain body of 250 letters at verbosity 0. -/
theorem fallback_body_witness :
    renderAnswer 0 sampleQuestion ⟨0, false, List.replicate 250 97⟩ 1 1 =
      (List.replicate 200 97 ++ str "...\n", false) := by
  have h := (fallback_body sampleQuestion ⟨0, false, List.replicate 250 97⟩ 1 1 [] []
    (by set_option maxRecDepth 100000 in decide)).2.1
  rw [h]
  set_option maxRecDepth 100000 in decide

/-- C16. For a selected answer with extraction `(codes, before, after)` and at
least one code: at verbosity 0 the whole output is the codes joined by one
empty line and ended by a newline; at verbosity 1 that text is preceded by
`before` and an empty line exactly when `before` is not empty and followed by
an empty line and `after` exactly when `after` is not empty. -/
theorem code_output (getAnswers : Int → Except Str (List Answer)) (q : Question) (k : Int)
    (answers : List Answer) (ans : Answer) (codes : List Str) (before after : Str)
    (hc : q.AnswerCount ≠ 0) (hg : getAnswers q.QuestionID = .ok answers) (hne : answers ≠ [])
    (hlen : (answers.length : Int) < 9223372036854775808) (hk : 1 ≤ k)
    (hsel : answers[(min k (answers.length : Int)).toNat - 1]? = some ans)
    (hp : parseAnswer ans.Body = some (codes, before, after)) (hcodes : codes ≠ []) :
    (showAnswer getAnswers 0 q k).out = join codes (str "\n\n") ++ str "\n" ∧
      (showAnswer getAnswers 1 q k).out =
        (if before ≠ [] then before ++ str "\n\n" else []) ++
          (join codes (str "\n\n") ++ str "\n") ++
          (if after ≠ [] then str "\n" ++ after ++ str "\n" else []) := by
  have hpos : 0 < codes.length := List.length_pos.mpr hcodes
  have hnn : str "\n\n" = str "\n" ++ str "\n" := by decide
  constructor
  · obtain ⟨a0, hs0, hrun⟩ := showAnswer_select getAnswers 0 q k answers hc hg hne hlen hk
    rw [hsel] at hs0
    cases hs0
    rw [hrun, renderAnswer_eq 0 q ans _ _ hp (bodyPart_codes 0 ans.Body hcodes)]
    simp
  · obtain ⟨a1, hs1, hrun⟩ := showAnswer_select getAnswers 1 q k answers hc hg hne hlen hk
    rw [hsel] at hs1
    cases hs1
    rw [hrun, renderAnswer_eq 1 q ans _ _ hp (bodyPart_codes 1 ans.Body hcodes)]
    have hv2 : ¬ ((1 : Int) ≥ 2) := by decide
    simp only [if_neg hv2, if_pos hpos, List.nil_append, List.append_nil]
    by_cases hb : before = [] <;> by_cases ha : after = []
    · subst hb; subst ha; simp
    · subst hb
      have : after.length > 0 := List.length_pos.mpr ha
      simp [ha, this]
    · subst ha
      have : before.length > 0 := List.length_pos.mpr hb
      simp [hb, this, hnn]
    · have h1 : after.length > 0 := List.length_pos.mpr ha
      have h2 : before.length > 0 := List.length_pos.mpr hb
      simp [ha, hb, h1, h2, hnn]

/-- Instance of C16: the first sample answer, with two code blocks. -/
theorem code_output_witness :
    (showAnswer sampleFetch 0 sampleQuestion 1).out = str "x := 1\n\ny\n" ∧
      (showAnswer sampleFetch 1 sampleQuestion 1).out =
        str "Try this:\n\nx := 1\n\ny\n\nDone.\n" := by
  have h := code_output sampleFetch sampleQuestion 1 [sampleAnswerCode, sampleAnswerProse]
    sampleAnswerCode [str "x := 1", str "y"] (str "Try this:") (str "Done.")
    (by decide) rfl (by decide) (by decide) (by decide) (by decide) (by decide) (by decide)
  refine ⟨?_, ?_⟩
  · rw [h.1]
    decide
  · rw [h.2]
    decide

/-- C20. With a non-empty retrieved list (and `k` a 64-bit `int`), the lookup
`answers[answerNum-1]` is in range exactly when the requested index `k` is at
least 1; for `k ≤ 0` the run writes nothing and ends in a panic, for `k ≥ 1` it
does not panic. -/
theorem answer_lookup_bounds (getAnswers : Int → Except Str (List Answer)) (verbosity : Int)
    (q : Question) (k : Int) (answers : List Answer)
    (hc : q.AnswerCount ≠ 0) (hg : getAnswers q.QuestionID = .ok answers) (hne : answers ≠ [])
    (hlen : (answers.length : Int) < 9223372036854775808)
    (hmin : -9223372036854775808 ≤ k) :
    ((index? answers (wrapInt ((if k > (answers.length : Int) then (answers.length : Int)
        else k) - 1))).isSome = true ↔ 1 ≤ k) ∧
      (k ≤ 0 → showAnswer getAnswers verbosity q k = ⟨[q.QuestionID], [], true⟩) ∧
      (1 ≤ k → (showAnswer getAnswers verbosity q k).panicked = false) := by
  refine ⟨?_, ?_, ?_⟩
  · constructor
    · intro h
      by_contra hk
      have := (showAnswer_low_index getAnswers verbosity q k answers hc hg hne hlen hmin
        (by omega)).1
      rw [this] at h
      exact Bool.noConfusion h
    · intro hk
      obtain ⟨ans, _, _, hidx⟩ := lookup_high k answers hne hlen hk
      rw [hidx]
      rfl
  · intro hk
    exact (showAnswer_low_index getAnswers verbosity q k answers hc hg hne hlen hmin hk).2
  · intro hk
    obtain ⟨ans, _, hrun⟩ := showAnswer_select getAnswers verbosity q k answers hc hg hne hlen hk
    rw [hrun]

/-- Instance of C20: the command-line value `-a 0`. -/
theorem answer_lookup_bounds_witness :
    showAnswer sampleFetch 0 sampleQuestion 0 = ⟨[42], [], true⟩ :=
  (answer_lookup_bounds sampleFetch 0 sampleQuestion 0 [sampleAnswerCode, sampleAnswerProse]
    (by decide) rfl (by decide) (by decide) (by decide)).2.1 (by decide)

/-! ## White space at the ends of a text -/

theorem spaceSeqs_pos : ∀ w ∈ spaceSeqs, 0 < w.length := by decide

theorem spaceSeqs_tail : ∀ w ∈ spaceSeqs, 10 ∉ w.tail := by decide

theorem spaceSeqs_dropLast : ∀ w ∈ spaceSeqs, 10 ∉ w.dropLast := by decide

theorem spaceSeqs_last : ∀ w ∈ spaceSeqs, w.getLast? ≠ some 46 := by decide

theorem startsWithSpace_false_iff (s : Str) :
    startsWithSpace s = false ↔ ∀ w ∈ spaceSeqs, ¬ w <+: s := by
  unfold startsWithSpace
  rw [List.any_eq_false]
  constructor
  · intro h w hw hp
    exact h w hw (List.isPrefixOf_iff_prefix.mpr hp)
  · intro h w hw hp
    exact h w hw (List.isPrefixOf_iff_prefix.mp hp)

theorem endsWithSpace_false_iff (s : Str) :
    endsWithSpace s = false ↔ ∀ w ∈ spaceSeqs, ¬ w <:+ s := by
  unfold endsWithSpace
  rw [List.any_eq_false]
  constructor
  · intro h w hw hp
    exact h w hw (List.isSuffixOf_iff_suffix.mpr hp)
  · intro h w hw hp
    exact h w hw (List.isSuffixOf_iff_suffix.mp hp)

theorem startsWithSpace_of_prefix {r l : Str} (h : r <+: l) (hl : startsWithSpace l = false) :
    startsWithSpace r = false := by
  rw [startsWithSpace_false_iff] at hl ⊢
  exact fun w hw hp => hl w hw (hp.trans h)

theorem endsWithSpace_of_suffix {r l : Str} (h : r <:+ l) (hl : endsWithSpace l = false) :
    endsWithSpace r = false := by
  rw [endsWithSpace_false_iff] at hl ⊢
  exact fun w hw hp => hl w hw (hp.trans h)

theorem find_prefix_none_iff (s : Str) :
    spaceSeqs.find? (fun w => w.isPrefixOf s) = none ↔ startsWithSpace s = false := by
  unfold startsWithSpace
  rw [List.find?_eq_none, List.any_eq_false]

theorem find_suffix_none_iff (s : Str) :
    spaceSeqs.find? (fun w => w.isSuffixOf s) = none ↔ endsWithSpace s = false := by
  unfold endsWithSpace
  rw [List.find?_eq_none, List.any_eq_false]

theorem trimLeftN_suffix : ∀ (n : Nat) (s : Str), trimLeftN n s <:+ s
  | 0, s => by simp [trimLeftN]
  | n + 1, s => by
    unfold trimLeftN
    split
    · exact (trimLeftN_suffix n _).trans (List.drop_suffix _ _)
    · exact List.suffix_refl _

theorem trimRightN_initial : ∀ (n : Nat) (s : Str), trimRightN n s <+: s
  | 0, s => by simp [trimRightN]
  | n + 1, s => by
    unfold trimRightN
    split
    · exact (trimRightN_initial n _).trans (List.take_prefix _ _)
    · exact List.prefix_refl _

theorem trimLeftN_clean : ∀ (n : Nat) (s : Str), s.length ≤ n →
    startsWithSpace (trimLeftN n s) = false
  | 0, s, h => by
    have : s = [] := List.length_eq_zero.mp (by omega)
    subst this
    decide
  | n + 1, s, h => by
    unfold trimLeftN
    split
    · rename_i w hw
      have hmem := List.mem_of_find?_eq_some hw
      have hpw : w.isPrefixOf s = true :=
        @List.find?_some _ (fun w => w.isPrefixOf s) w spaceSeqs hw
      have hp := isPrefixOf_length_le hpw
      have hpos := spaceSeqs_pos w hmem
      exact trimLeftN_clean n _ (by simp only [List.length_drop]; omega)
    · rename_i hw
      exact (find_prefix_none_iff s).mp hw

theorem trimRightN_clean : ∀ (n : Nat) (s : Str), s.length ≤ n →
    endsWithSpace (trimRightN n s) = false
  | 0, s, h => by
    have : s = [] := List.length_eq_zero.mp (by omega)
    subst this
    decide
  | n + 1, s, h => by
    unfold trimRightN
    split
    · rename_i w hw
      have hmem := List.mem_of_find?_eq_some hw
      have hpw : w.isSuffixOf s = true :=
        @List.find?_some _ (fun w => w.isSuffixOf s) w spaceSeqs hw
      have hp := (List.isSuffixOf_iff_suffix.mp hpw).length_le
      have hpos := spaceSeqs_pos w hmem
      exact trimRightN_clean n _ (by simp only [List.length_take]; omega)
    · rename_i hw
      exact (find_suffix_none_iff s).mp hw

theorem trimLeftN_fix (n : Nat) {s : Str} (h : startsWithSpace s = false) : trimLeftN n s = s := by
  cases n with
  | zero => rfl
  | succ n =>
    unfold trimLeftN
    rw [(find_prefix_none_iff s).mpr h]

theorem trimRightN_fix (n : Nat) {s : Str} (h : endsWithSpace s = false) : trimRightN n s = s := by
  cases n with
  | zero => rfl
  | succ n =>
    unfold trimRightN
    rw [(find_suffix_none_iff s).mpr h]

theorem TrimSpace_starts (s : Str) : startsWithSpace (TrimSpace s) = false :=
  startsWithSpace_of_prefix (trimRightN_initial _ _) (trimLeftN_clean _ _ (Nat.le_refl _))

theorem TrimSpace_ends (s : Str) : endsWithSpace (TrimSpace s) = false :=
  trimRightN_clean _ _ (Nat.le_refl _)

theorem TrimSpace_fix {s : Str} (h1 : startsWithSpace s = false) (h2 : endsWithSpace s = false) :
    TrimSpace s = s := by
  unfold TrimSpace
  simp only [trimLeftN_fix _ h1, trimRightN_fix _ h2]

theorem startsWithSpace_append_nl {l : Str} (R : Str) (hne : l ≠ [])
    (h : startsWithSpace l = false) : startsWithSpace (l ++ 10 :: R) = false := by
  rw [startsWithSpace_false_iff] at h ⊢
  intro w hw hp
  by_cases hlen : w.length ≤ l.length
  · exact h w hw (List.prefix_of_prefix_length_le hp (List.prefix_append _ _) hlen)
  · have hlw : l <+: w := List.prefix_of_prefix_length_le (List.prefix_append _ _) hp (by omega)
    have hsplit : l ++ w.drop l.length = w := List.prefix_iff_eq_append.mp hlw
    have h1 : l ++ w.drop l.length <+: l ++ 10 :: R := by rw [hsplit]; exact hp
    have h2 : w.drop l.length <+: 10 :: R := (List.prefix_append_right_inj l).mp h1
    have hdl : (w.drop l.length).length = w.length - l.length := List.length_drop _ _
    cases hd : w.drop l.length with
    | nil => rw [hd] at hdl; simp at hdl; omega
    | cons x t =>
      rw [hd] at h2
      have hx : x = 10 := (List.cons_prefix_cons.mp h2).1
      subst hx
      apply spaceSeqs_tail w hw
      cases l with
      | nil => exact absurd rfl hne
      | cons a l' =>
        rw [← hsplit, hd]
        simp

theorem endsWithSpace_append_nl {J : Str} (L : Str) (hne : J ≠ [])
    (h : endsWithSpace J = false) : endsWithSpace (L ++ 10 :: J) = false := by
  rw [endsWithSpace_false_iff] at h ⊢
  intro w hw hp
  have hJ : J <:+ L ++ 10 :: J := by
    have : L ++ 10 :: J = (L ++ [10]) ++ J := by simp
    rw [this]
    exact List.suffix_append _ _
  by_cases hlen : w.length ≤ J.length
  · exact h w hw (List.suffix_of_suffix_length_le hp hJ hlen)
  · have hJw : J <:+ w := List.suffix_of_suffix_length_le hJ hp (by omega)
    obtain ⟨w', hw'⟩ := hJw
    obtain ⟨t, ht⟩ := hp
    have hw'ne : w' ≠ [] := by
      intro h0
      rw [h0] at hw'
      simp only [List.nil_append] at hw'
      rw [hw'] at hlen
      omega
    have hcancel : t ++ w' = L ++ [10] := by
      apply @List.append_cancel_right _ _ J
      rw [List.append_assoc, hw', ht]
      simp
    have hlast : w'.getLast? = some 10 := by
      rw [← List.getLast?_append_of_ne_nil t hw'ne, hcancel]
      exact List.getLast?_concat _
    have hmem : 10 ∈ w' := List.mem_of_getLast?_eq_some hlast
    apply spaceSeqs_dropLast w hw
    rw [← hw', List.dropLast_append_of_ne_nil _ hne]
    exact List.mem_append_left _ hmem

/-! ## Lines -/

theorem split_mem_no_sep : ∀ (s : Str) (sep : Nat), ∀ x ∈ split s sep, sep ∉ x
  | [], sep => by simp [split]
  | c :: t, sep => by
    have ih := split_mem_no_sep t sep
    unfold split
    by_cases hc : c = sep
    · rw [if_pos hc]
      intro x hx
      rcases List.mem_cons.mp hx with h | h
      · subst h; simp
      · exact ih x h
    · rw [if_neg hc]
      cases hs : split t sep with
      | nil =>
        simp only [List.mem_singleton, forall_eq, List.mem_cons, List.not_mem_nil, or_false]
        exact fun h => hc h.symm
      | cons l ls =>
        rw [hs] at ih
        intro x hx
        rcases List.mem_cons.mp hx with h | h
        · subst h
          have := ih l (List.mem_cons_self _ _)
          simp only [List.mem_cons, not_or]
          exact ⟨fun h => hc h.symm, this⟩
        · exact ih x (List.mem_cons_of_mem _ h)

theorem split_of_no_sep : ∀ (l : Str) (sep : Nat), sep ∉ l → split l sep = [l]
  | [], _, _ => by simp [split]
  | c :: t, sep, h => by
    have hc : ¬ c = sep := fun e => h (by simp [e])
    have ih := split_of_no_sep t sep (fun hm => h (List.mem_cons_of_mem _ hm))
    unfold split
    rw [if_neg hc, ih]

theorem split_append_sep : ∀ (l J : Str) (sep : Nat), sep ∉ l →
    split (l ++ sep :: J) sep = l :: split J sep
  | [], J, sep, _ => by
    simp only [List.nil_append]
    rw [split, if_pos rfl]
  | c :: t, J, sep, h => by
    have hc : ¬ c = sep := fun e => h (by simp [e])
    have ih := split_append_sep t J sep (fun hm => h (List.mem_cons_of_mem _ hm))
    simp only [List.cons_append]
    rw [split, if_neg hc, ih]

theorem join_cons_cons (a b : Str) (r : List Str) :
    join (a :: b :: r) [10] = a ++ 10 :: join (b :: r) [10] := by
  simp [join]

theorem split_join_lines : ∀ ls : List Str, ls ≠ [] → (∀ l ∈ ls, 10 ∉ l) →
    split (join ls [10]) 10 = ls
  | [], h, _ => absurd rfl h
  | [a], _, h => by
    simp only [join]
    exact split_of_no_sep a 10 (h a (List.mem_cons_self _ _))
  | a :: b :: r, _, h => by
    have ih := split_join_lines (b :: r) (List.cons_ne_nil _ _)
      (fun l hl => h l (List.mem_cons_of_mem _ hl))
    rw [join_cons_cons, split_append_sep a _ 10 (h a (List.mem_cons_self _ _)), ih]

theorem join_lines_ne_nil : ∀ ls : List Str, ls ≠ [] → (∀ l ∈ ls, l ≠ []) → join ls [10] ≠ []
  | [], h, _ => absurd rfl h
  | [a], _, h => by
    simp only [join]
    exact h a (List.mem_cons_self _ _)
  | a :: b :: r, _, _ => by
    rw [join_cons_cons]
    simp

theorem join_lines_starts : ∀ ls : List Str, (∀ l ∈ ls, l ≠ [] ∧ startsWithSpace l = false) →
    startsWithSpace (join ls [10]) = false
  | [], _ => by decide
  | [a], h => by
    simp only [join]
    exact (h a (List.mem_cons_self _ _)).2
  | a :: b :: r, h => by
    rw [join_cons_cons]
    have ha := h a (List.mem_cons_self _ _)
    exact startsWithSpace_append_nl _ ha.1 ha.2

theorem join_lines_ends : ∀ ls : List Str, (∀ l ∈ ls, l ≠ [] ∧ endsWithSpace l = false) →
    endsWithSpace (join ls [10]) = false
  | [], _ => by decide
  | [a], h => by
    simp only [join]
    exact (h a (List.mem_cons_self _ _)).2
  | a :: b :: r, h => by
    rw [join_cons_cons]
    have hrest : ∀ l ∈ b :: r, l ≠ [] ∧ endsWithSpace l = false :=
      fun l hl => h l (List.mem_cons_of_mem _ hl)
    exact endsWithSpace_append_nl a
      (join_lines_ne_nil (b :: r) (List.cons_ne_nil _ _) (fun l hl => (hrest l hl).1))
      (join_lines_ends (b :: r) hrest)

theorem split_tail_of_double_sep : ∀ (a b : Str) (sep : Nat),
    [] ∈ (split (a ++ sep :: sep :: b) sep).tail
  | [], b, sep => by
    simp only [List.nil_append]
    rw [split, if_pos rfl, split, if_pos rfl]
    simp
  | x :: a, b, sep => by
    have ih := split_tail_of_double_sep a b sep
    simp only [List.cons_append]
    rw [split]
    split
    · exact List.mem_of_mem_tail ih
    · cases hs : split (a ++ sep :: sep :: b) sep with
      | nil => rw [hs] at ih; simp at ih
      | cons l ls =>
        rw [hs] at ih
        simpa using ih

theorem no_double_sep {t : Str} (h : [] ∉ split t 10) : contains t (str "\n\n") = false := by
  apply Bool.eq_false_iff.mpr
  intro hc
  obtain ⟨a, b, hab⟩ := (contains_iff t _).mp hc
  apply h
  have e : str "\n\n" = [10, 10] := by decide
  rw [hab, e]
  have := split_tail_of_double_sep a b 10
  simp only [List.append_assoc, List.cons_append, List.nil_append]
  exact List.mem_of_mem_tail this

theorem stripHTML_shape (s : Str) :
    ∃ X : Str, stripHTML s =
      join (((split X 10).map TrimSpace).filter (fun line => line ≠ [])) [10] :=
  ⟨_, by unfold stripHTML; rw [str_nl]⟩

theorem cleaned_lines (X : Str) :
    ∀ l ∈ ((split X 10).map TrimSpace).filter (fun line => line ≠ []),
      l ≠ [] ∧ 10 ∉ l ∧ startsWithSpace l = false ∧ endsWithSpace l = false := by
  intro l hl
  obtain ⟨hm, hne⟩ := List.mem_filter.mp hl
  obtain ⟨x, hx, rfl⟩ := List.mem_map.mp hm
  refine ⟨by simpa using hne, ?_, TrimSpace_starts x, TrimSpace_ends x⟩
  intro h10
  exact split_mem_no_sep X 10 x hx ((TrimSpace_sublist x).subset h10)

theorem stripHTML_lines_exist (s : Str) :
    ∃ lines : List Str, stripHTML s = join lines [10] ∧
      ∀ l ∈ lines, l ≠ [] ∧ 10 ∉ l ∧ startsWithSpace l = false ∧ endsWithSpace l = false := by
  obtain ⟨X, hX⟩ := stripHTML_shape s
  exact ⟨_, hX, cleaned_lines X⟩

/-- C11. The output of `stripHTML` is empty or a sequence of lines joined by single
newlines, each line non-empty, without a newline inside and without leading or
trailing white space; so the output has no empty line, neither begins nor ends
with white space, and never has two newlines in a row. -/
theorem stripHTML_normalised (s : Str) :
    (stripHTML s = [] ∨ ∃ lines : List Str, lines ≠ [] ∧ stripHTML s = join lines (str "\n") ∧
        split (stripHTML s) 10 = lines ∧
        ∀ l ∈ lines, l ≠ [] ∧ 10 ∉ l ∧ startsWithSpace l = false ∧ endsWithSpace l = false) ∧
      startsWithSpace (stripHTML s) = false ∧ endsWithSpace (stripHTML s) = false ∧
      contains (stripHTML s) (str "\n\n") = false := by
  obtain ⟨lines, hj, hl⟩ := stripHTML_lines_exist s
  have hst : startsWithSpace (stripHTML s) = false := by
    rw [hj]
    exact join_lines_starts lines (fun l h => ⟨(hl l h).1, (hl l h).2.2.1⟩)
  have hen : endsWithSpace (stripHTML s) = false := by
    rw [hj]
    exact join_lines_ends lines (fun l h => ⟨(hl l h).1, (hl l h).2.2.2⟩)
  cases lines with
  | nil =>
    have he : stripHTML s = [] := by rw [hj]; rfl
    refine ⟨Or.inl he, hst, hen, ?_⟩
    rw [he]
    decide
  | cons a r =>
    have hsp : split (stripHTML s) 10 = a :: r := by
      rw [hj]
      exact split_join_lines _ (List.cons_ne_nil _ _) (fun l h => (hl l h).2.1)
    refine ⟨Or.inr ⟨a :: r, List.cons_ne_nil _ _, by rw [str_nl]; exact hj, hsp, hl⟩,
      hst, hen, ?_⟩
    apply no_double_sep
    rw [hsp]
    intro h
    exact (hl [] h).1 rfl

/-- Instance of C11: paragraphs, breaks, blank lines and padded lines. -/
theorem stripHTML_normalised_witness :
    split (stripHTML (str "<p> one </p>\n\n\t two<br/><br> three \r\n")) 10
        = [str "one", str "two", str "three"] ∧
      contains (stripHTML (str "<p> one </p>\n\n\t two<br/><br> three \r\n")) (str "\n\n")
        = false := by
  have h := stripHTML_normalised (str "<p> one </p>\n\n\t two<br/><br> three \r\n")
  refine ⟨by decide, h.2.2.2⟩

/-! ## Idempotence of the decoder -/

theorem replaceAllGo_noop (old new : Str) : ∀ t : Str, contains t old = false →
    replaceAllGo old new t 0 = t
  | [], _ => by simp [replaceAllGo]
  | c :: t, h => by
    have hc := contains_cons_false h
    rw [replaceAllGo, if_neg (by simp [hc.1]), replaceAllGo_noop old new t hc.2]

theorem replaceAll_noop {t old : Str} (new : Str) (h : contains t old = false) :
    replaceAll t old new = t :=
  replaceAllGo_noop old new t h

theorem contains_tag_false {t : Str} (m : Str) (h : hasTag t = false) :
    contains t (60 :: (m ++ [62])) = false := by
  apply Bool.eq_false_iff.mpr
  intro hc
  obtain ⟨a, b, hab⟩ := (contains_iff t _).mp hc
  have : hasTag t = true := (hasTag_iff t).mpr ⟨a, m, b, by rw [hab]; simp⟩
  rw [h] at this
  exact Bool.noConfusion this

theorem stripTagsGo_noop : ∀ t : Str, hasTag t = false → stripTagsGo t false = t
  | [], _ => by simp [stripTagsGo]
  | c :: t, h => by
    simp only [hasTag, Bool.or_eq_false_iff, decide_eq_false_iff_not] at h
    rw [stripTagsGo, if_neg h.1, stripTagsGo_noop t h.2]

theorem stripHTML_of_clean {t : Str}
    (hent : ∀ e ∈ [str "&lt;", str "&gt;", str "&quot;", str "&amp;", str "&#39;", str "&#x27;"],
      contains t e = false)
    (htag : hasTag t = false) :
    stripHTML t = join (((split t 10).map TrimSpace).filter (fun line => line ≠ [])) [10] := by
  have p1 : contains t (str "<p>") = false := contains_tag_false [112] htag
  have p2 : contains t (str "</p>") = false := contains_tag_false [47, 112] htag
  have p3 : contains t (str "<br>") = false := contains_tag_false [98, 114] htag
  have p4 : contains t (str "<br/>") = false := contains_tag_false [98, 114, 47] htag
  have e1 := hent (str "&lt;") (by simp)
  have e2 := hent (str "&gt;") (by simp)
  have e3 := hent (str "&quot;") (by simp)
  have e4 := hent (str "&amp;") (by simp)
  have e5 := hent (str "&#39;") (by simp)
  have e6 := hent (str "&#x27;") (by simp)
  unfold stripHTML decodeEntities
  simp only [replaceAll_noop _ p1, replaceAll_noop _ p2, replaceAll_noop _ p3,
    replaceAll_noop _ p4, replaceAll_noop _ e1, replaceAll_noop _ e2, replaceAll_noop _ e3,
    replaceAll_noop _ e4, replaceAll_noop _ e5, replaceAll_noop _ e6]
  unfold stripTags
  rw [stripTagsGo_noop t htag, str_nl]

theorem filter_map_TrimSpace_lines (ls : List Str)
    (h : ∀ l ∈ ls, l ≠ [] ∧ 10 ∉ l ∧ startsWithSpace l = false ∧ endsWithSpace l = false) :
    (ls.map TrimSpace).filter (fun line => line ≠ []) = ls := by
  induction ls with
  | nil => rfl
  | cons a r ih =>
    have ha := h a (List.mem_cons_self _ _)
    have ihr := ih (fun l hl => h l (List.mem_cons_of_mem _ hl))
    simp only [List.map_cons, TrimSpace_fix ha.2.2.1 ha.2.2.2]
    rw [List.filter_cons_of_pos (by simpa using ha.1), ihr]

/-- C12. If `stripHTML(s)` contains none of the six entities and no tag, applying
`stripHTML` to it again changes nothing. -/
theorem stripHTML_idempotent (s : Str)
    (hent : ∀ e ∈ [str "&lt;", str "&gt;", str "&quot;", str "&amp;", str "&#39;", str "&#x27;"],
      contains (stripHTML s) e = false)
    (htag : hasTag (stripHTML s) = false) :
    stripHTML (stripHTML s) = stripHTML s := by
  rw [stripHTML_of_clean hent htag]
  obtain ⟨lines, hj, hl⟩ := stripHTML_lines_exist s
  cases lines with
  | nil =>
    have he : stripHTML s = [] := by rw [hj]; rfl
    rw [he]
    decide
  | cons a r =>
    have hsp : split (stripHTML s) 10 = a :: r := by
      rw [hj]
      exact split_join_lines _ (List.cons_ne_nil _ _) (fun l h => (hl l h).2.1)
    rw [hsp, filter_map_TrimSpace_lines _ hl, ← hj]

/-- Instance of C12: a text whose decoded form holds no entity. -/
theorem stripHTML_idempotent_witness :
    stripHTML (stripHTML (str "<p>a &lt; b</p>\n  <b>x</b> &amp; y ")) =
      stripHTML (str "<p>a &lt; b</p>\n  <b>x</b> &amp; y ") :=
  stripHTML_idempotent _ (by decide) (by decide)

/-! ## Prose fragments -/

theorem beforeSource_clean (html : Str) :
    startsWithSpace (beforeSource html) = false ∧ endsWithSpace (beforeSource html) = false := by
  unfold beforeSource
  split
  · exact ⟨by decide, by decide⟩
  · exact ⟨TrimSpace_starts _, TrimSpace_ends _⟩

theorem afterSource_clean (html : Str) :
    startsWithSpace (afterSource html) = false ∧ endsWithSpace (afterSource html) = false := by
  unfold afterSource
  split
  · exact ⟨by decide, by decide⟩
  · exact ⟨TrimSpace_starts _, TrimSpace_ends _⟩

theorem endsWithSpace_append_dot (piece : Str) : endsWithSpace (piece ++ [46]) = false := by
  rw [endsWithSpace_false_iff]
  intro w hw hp
  obtain ⟨t, ht⟩ := hp
  have hne : w ≠ [] := List.length_pos.mp (spaceSeqs_pos w hw)
  apply spaceSeqs_last w hw
  rw [← List.getLast?_append_of_ne_nil t hne, ht]
  exact List.getLast?_concat _

theorem lastIndex_of_not_mem (c : Nat) : ∀ s : Str, c ∉ s → lastIndex s [c] = -1
  | [], _ => by simp [lastIndex, List.isPrefixOf]
  | x :: t, h => by
    have ih := lastIndex_of_not_mem c t (fun hm => h (List.mem_cons_of_mem _ hm))
    have hx : ¬ c = x := fun e => h (by simp [e])
    unfold lastIndex
    simp only [ih]
    rw [if_neg (by decide)]
    simp [List.isPrefixOf, hx]

theorem cutBefore_ends {T b : Str} (hT : endsWithSpace T = false) (h : cutBefore T = some b) :
    endsWithSpace b = false := by
  by_cases hs : T.length ≤ 150
  · rw [cutBefore_short hs] at h
    cases h
    exact hT
  · by_cases h2 : 1 < (split T 46).length
    · obtain ⟨piece, _, hc⟩ := cutBefore_sentence (by omega) h2
      rw [hc] at h
      cases h
      exact endsWithSpace_append_dot piece
    · rw [cutBefore_tail (by omega) (by omega)] at h
      rw [← Option.some.inj h]
      exact endsWithSpace_of_suffix (List.drop_suffix _ _) hT

theorem cutAfter_initial {U a : Str} (h : cutAfter U = some a) : a <+: U.take 150 := by
  by_cases hs : U.length ≤ 150
  · rw [cutAfter_short hs] at h
    cases h
    rw [List.take_of_length_le hs]
  · rw [cutAfter_long (by omega)] at h
    have hb := lastIndex_bounds [46] (by simp) (U.take 150)
    have hlen : (U.take 150).length = 150 := by simp; omega
    rw [← Option.some.inj h]
    split
    · have : U.take (lastIndex (U.take 150) [46] + 1).toNat
          = (U.take 150).take (lastIndex (U.take 150) [46] + 1).toNat := by
        rw [List.take_take]
        congr 1
        omega
      rw [this]
      exact List.take_prefix _ _
    · exact List.prefix_refl _

/-- C17 (evaluation at the failing input). For the language `js` and the code
`var x = 1;` (no `<`, no `&`, no leading `:`) `cleanCode` keeps `js -->` in front
of the code, for both forms of the annotation: only the opening text of the
comment is deleted, after which the tag pattern no longer matches the rest. -/
theorem snippet_marker_left_behind :
    cleanCode (str "<!-- language: lang-js -->\nvar x = 1;") = str "js -->\nvar x = 1;" ∧
      cleanCode (str "<!-- language-all: lang-js -->\nvar x = 1;") = str "js -->\nvar x = 1;" ∧
      TrimSpace (str "var x = 1;") = str "var x = 1;" ∧
      contains (cleanCode (str "<!-- language: lang-js -->\nvar x = 1;")) (str "-->") = true ∧
      parseAnswer (str "<pre><code><!-- language: lang-js -->\nvar x = 1;</code></pre>") =
        some ([str "js -->\nvar x = 1;"], [], []) := by
  decide

/-- C18 (counterexample). Prose of 168 bytes in three sentences before the block
and 160 bytes without a period after it: the before-text starts with a blank
and the after-text ends with a blank. -/
theorem prose_fragments_untrimmed :
    parseAnswer (str "<p>" ++ List.replicate 100 97 ++ str ". " ++ List.replicate 60 98 ++
        str ". See:</p><pre><code>x</code></pre>" ++ List.replicate 149 99 ++ str " " ++
        List.replicate 10 100)
      = some ([str "x"], 32 :: List.replicate 60 98 ++ [46], List.replicate 149 99 ++ [32]) ∧
      startsWithSpace (32 :: List.replicate 60 98 ++ [46]) = true ∧
      endsWithSpace (List.replicate 149 99 ++ [32]) = true := by
  set_option maxRecDepth 100000 in decide

/-- C18 (amended). On every input the before-text has no trailing white space and
the after-text has no leading white space; when the decoded, trimmed text
before the first block has at most 150 bytes the before-text has no leading
white space either, and when the text after the last block has at most 150
bytes the after-text has no trailing white space either. -/
theorem prose_fragments_trimmed (html : Str) :
    ∃ codes before after, parseAnswer html = some (codes, before, after) ∧
      endsWithSpace before = false ∧ startsWithSpace after = false ∧
      ((beforeSource html).length ≤ 150 → startsWithSpace before = false) ∧
      ((afterSource html).length ≤ 150 → endsWithSpace after = false) := by
  obtain ⟨b, a, hb, ha, hp⟩ := parseAnswer_sources html
  have hB := beforeSource_clean html
  have hA := afterSource_clean html
  refine ⟨_, b, a, hp, cutBefore_ends hB.2 hb, ?_, ?_, ?_⟩
  · exact startsWithSpace_of_prefix ((cutAfter_initial ha).trans (List.take_prefix _ _)) hA.1
  · intro hs
    rw [cutBefore_short hs] at hb
    cases hb
    exact hB.1
  · intro hs
    rw [cutAfter_short hs] at ha
    cases ha
    exact hA.2

/-- Instance of the amended C18: short prose on both sides of a block. -/
theorem prose_fragments_trimmed_witness :
    ∃ codes, parseAnswer (str "<p> Try this: </p><pre><code>x</code></pre> <p>Done. </p>")
        = some (codes, str "Try this:", str "Done.") ∧
      startsWithSpace (str "Try this:") = false ∧ endsWithSpace (str "Done.") = false := by
  obtain ⟨codes, before, after, hp, _, _, hb, ha⟩ :=
    prose_fragments_trimmed (str "<p> Try this: </p><pre><code>x</code></pre> <p>Done. </p>")
  have he : parseAnswer (str "<p> Try this: </p><pre><code>x</code></pre> <p>Done. </p>")
      = some ([str "x"], str "Try this:", str "Done.") := by decide
  rw [he] at hp
  cases hp
  exact ⟨_, he, hb (by decide), ha (by decide)⟩

/-- C19 (counterexample). The text after the block is 100 times the letter `é`:
100 characters but 200 bytes; the after-text is cut to its first 150 bytes (75
characters). -/
theorem after_text_cut_below_150_chars :
    afterSource (str "<pre><code>x</code></pre>" ++ (List.replicate 100 (str "é")).flatten)
        = (List.replicate 100 (str "é")).flatten ∧
      runeCount (List.replicate 100 (str "é")).flatten = 100 ∧
      parseAnswer (str "<pre><code>x</code></pre>" ++ (List.replicate 100 (str "é")).flatten)
        = some ([str "x"], [], (List.replicate 75 (str "é")).flatten) ∧
      (List.replicate 75 (str "é")).flatten ≠ (List.replicate 100 (str "é")).flatten := by
  set_option maxRecDepth 100000 in decide

/-- C19 (amended). The threshold counts bytes: when the decoded, trimmed text `U`
after the last block has at most 150 bytes the after-text is `U` unchanged;
when `U` has more than 150 bytes the after-text differs from `U` and is a
prefix of the first 150 bytes of `U`, all of them when they hold no period. -/
theorem after_text_byte_threshold (html : Str) :
    ∃ codes before after, parseAnswer html = some (codes, before, after) ∧
      ((afterSource html).length ≤ 150 → after = afterSource html) ∧
      (150 < (afterSource html).length →
        after ≠ afterSource html ∧ after <+: (afterSource html).take 150 ∧
        (46 ∉ (afterSource html).take 150 → after = (afterSource html).take 150)) := by
  obtain ⟨b, a, _, ha, hp⟩ := parseAnswer_sources html
  refine ⟨_, b, a, hp, ?_, ?_⟩
  · intro hs
    rw [cutAfter_short hs] at ha
    exact (Option.some.inj ha).symm
  · intro hl
    have hpre := cutAfter_initial ha
    refine ⟨?_, hpre, ?_⟩
    · intro he
      have := hpre.length_le
      rw [he] at this
      simp only [List.length_take] at this
      omega
    · intro hno
      rw [cutAfter_long hl, lastIndex_of_not_mem 46 _ hno] at ha
      rw [if_neg (by decide)] at ha
      exact (Option.some.inj ha).symm

/-- Instance of the amended C19: 100 letters `é` after the block, 200 bytes. -/
theorem after_text_byte_threshold_witness :
    ∃ codes before,
      parseAnswer (str "<pre><code>x</code></pre>" ++ (List.replicate 100 (str "é")).flatten)
        = some (codes, before, ((List.replicate 100 (str "é")).flatten).take 150) := by
  obtain ⟨codes, before, after, hp, _, hlong⟩ := after_text_byte_threshold
    (str "<pre><code>x</code></pre>" ++ (List.replicate 100 (str "é")).flatten)
  have hsrc : afterSource (str "<pre><code>x</code></pre>" ++
      (List.replicate 100 (str "é")).flatten) = (List.replicate 100 (str "é")).flatten := by
    set_option maxRecDepth 100000 in decide
  rw [hsrc] at hlong
  have h3 := (hlong (by set_option maxRecDepth 100000 in decide)).2.2
    (by set_option maxRecDepth 100000 in decide)
  exact ⟨codes, before, by rw [hp, h3]⟩

/-! ## Entity decoding: successive passes and one pass -/

theorem decodeEntities_eq_seqDecode (s : Str) : decodeEntities s = seqDecode specEntities s := rfl

theorem replaceAllGo_skip (old new : Str) : ∀ (X S : Str),
    replaceAllGo old new (X ++ S) X.length = replaceAllGo old new S 0
  | [], S => by simp
  | x :: X, S => by
    simp only [List.cons_append, List.length_cons]
    rw [replaceAllGo, replaceAllGo_skip old new X S]

theorem replaceAll_nil (old new : Str) : replaceAll [] old new = [] := by
  simp [replaceAll, replaceAllGo]

theorem replaceAll_cons_of_not_isPrefixOf {x : Nat} {S old : Str} (new : Str)
    (h : old.isPrefixOf (x :: S) = false) :
    replaceAll (x :: S) old new = x :: replaceAll S old new := by
  unfold replaceAll
  rw [replaceAllGo, if_neg (by simp [h])]

theorem replaceAll_of_isPrefixOf {a : Nat} {body : Str} (new R : Str) :
    replaceAll (a :: body ++ R) (a :: body) new = new ++ replaceAll R (a :: body) new := by
  unfold replaceAll
  have hp : (a :: body).isPrefixOf (a :: body ++ R) = true :=
    List.isPrefixOf_iff_prefix.mpr (List.prefix_append _ _)
  simp only [List.cons_append] at hp ⊢
  rw [replaceAllGo, if_pos hp]
  simp only [List.length_cons, Nat.add_sub_cancel]
  rw [replaceAllGo_skip]

theorem goodEntry_name {p : Str × Nat} (h : goodEntry p = true) : p.1 = 38 :: p.1.tail := by
  unfold goodEntry at h
  simp only [Bool.and_eq_true, beq_iff_eq] at h
  cases hp : p.1 with
  | nil => rw [hp] at h; simp at h
  | cons a l =>
    rw [hp] at h
    simp only [List.head?_cons, Option.some.injEq] at h
    simp [h.1.1]

theorem goodEntry_body {p : Str × Nat} (h : goodEntry p = true) :
    ∀ b ∈ p.1.tail, b ∉ outChars := by
  unfold goodEntry at h
  simp only [Bool.and_eq_true, List.all_eq_true, decide_eq_true_eq] at h
  exact h.1.2

theorem goodEntry_value {p : Str × Nat} (h : goodEntry p = true) : p.2 ∈ outChars := by
  unfold goodEntry at h
  simp only [Bool.and_eq_true, decide_eq_true_eq] at h
  exact h.2

theorem not_isPrefixOf_of_head {p : Str × Nat} (h : goodEntry p = true) {x : Nat} (S : Str)
    (hx : x ≠ 38) : p.1.isPrefixOf (x :: S) = false := by
  rw [goodEntry_name h]
  apply Bool.eq_false_iff.mpr
  intro hp
  have := List.isPrefixOf_iff_prefix.mp hp
  exact hx (List.cons_prefix_cons.mp this).1.symm

theorem seqDecode_cons (p : Str × Nat) (tbl : List (Str × Nat)) (s : Str) :
    seqDecode (p :: tbl) s = seqDecode tbl (replaceAll s p.1 [p.2]) := rfl

theorem seqDecode_append (pre post : List (Str × Nat)) (s : Str) :
    seqDecode (pre ++ post) s = seqDecode post (seqDecode pre s) := by
  unfold seqDecode
  rw [List.foldl_append]

theorem seqDecode_empty : ∀ tbl : List (Str × Nat), seqDecode tbl [] = []
  | [] => rfl
  | p :: tbl => by rw [seqDecode_cons, replaceAll_nil, seqDecode_empty tbl]

theorem seqDecode_plain : ∀ (tbl : List (Str × Nat)), (∀ p ∈ tbl, goodEntry p = true) →
    ∀ (x : Nat) (t : Str), x ≠ 38 → seqDecode tbl (x :: t) = x :: seqDecode tbl t
  | [], _, _, _, _ => rfl
  | p :: tbl, hg, x, t, hx => by
    rw [seqDecode_cons, seqDecode_cons,
      replaceAll_cons_of_not_isPrefixOf _ (not_isPrefixOf_of_head (hg p (List.mem_cons_self _ _)) t hx)]
    exact seqDecode_plain tbl (fun q hq => hg q (List.mem_cons_of_mem _ hq)) x _ hx

theorem seqDecode_plain_run : ∀ (tbl : List (Str × Nat)), (∀ p ∈ tbl, goodEntry p = true) →
    ∀ (B t : Str), 38 ∉ B → seqDecode tbl (B ++ t) = B ++ seqDecode tbl t
  | _, _, [], _, _ => rfl
  | tbl, hg, b :: B, t, hB => by
    have hb : b ≠ 38 := fun e => hB (by simp [e])
    simp only [List.cons_append]
    rw [seqDecode_plain tbl hg b _ hb,
      seqDecode_plain_run tbl hg B t (fun h => hB (List.mem_cons_of_mem _ h))]

theorem replaceAll_head_out {s : Str} (p : Str × Nat) (hg : goodEntry p = true)
    (h : ∃ a t, s = a :: t ∧ a ∈ outChars) :
    ∃ a t, replaceAll s p.1 [p.2] = a :: t ∧ a ∈ outChars := by
  obtain ⟨a, t, rfl, ha⟩ := h
  by_cases hp : p.1.isPrefixOf (a :: t) = true
  · have hsplit := List.prefix_iff_eq_append.mp (List.isPrefixOf_iff_prefix.mp hp)
    rw [← hsplit, goodEntry_name hg, replaceAll_of_isPrefixOf]
    exact ⟨p.2, _, rfl, goodEntry_value hg⟩
  · rw [replaceAll_cons_of_not_isPrefixOf _ (Bool.eq_false_iff.mpr hp)]
    exact ⟨a, _, rfl, ha⟩

theorem seqDecode_head_out : ∀ (tbl : List (Str × Nat)), (∀ p ∈ tbl, goodEntry p = true) →
    ∀ s : Str, (∃ a t, s = a :: t ∧ a ∈ outChars) →
      ∃ a t, seqDecode tbl s = a :: t ∧ a ∈ outChars
  | [], _, _, h => h
  | p :: tbl, hg, s, h => by
    rw [seqDecode_cons]
    exact seqDecode_head_out tbl (fun q hq => hg q (List.mem_cons_of_mem _ hq)) _
      (replaceAll_head_out p (hg p (List.mem_cons_self _ _)) h)

/-- A text without any of the characters that entities stand for is at the start
of the decoded text only if it is at the start of the text itself. -/
theorem seqDecode_reflects_start (tbl : List (Str × Nat)) (hg : ∀ p ∈ tbl, goodEntry p = true) :
    ∀ (B t : Str), (∀ b ∈ B, b ∉ outChars) → B <+: seqDecode tbl t → B <+: t
  | [], _, _, _ => List.nil_prefix
  | b :: B, [], _, h => by rw [seqDecode_empty] at h; exact h
  | b :: B, x :: t, hB, h => by
    by_cases hx : x = 38
    · subst hx
      obtain ⟨a, r, hr, ha⟩ := seqDecode_head_out tbl hg (38 :: t) ⟨38, t, rfl, by decide⟩
      rw [hr] at h
      have := (List.cons_prefix_cons.mp h).1
      rw [this] at hB
      exact absurd ha (hB a (List.mem_cons_self _ _))
    · rw [seqDecode_plain tbl hg x t hx] at h
      obtain ⟨hbx, hrest⟩ := List.cons_prefix_cons.mp h
      rw [hbx]
      exact List.cons_prefix_cons.mpr ⟨rfl,
        seqDecode_reflects_start tbl hg B t (fun c hc => hB c (List.mem_cons_of_mem _ hc)) hrest⟩

theorem seqDecode_amp_kept : ∀ (tbl pre : List (Str × Nat)) (t : Str),
    (∀ p ∈ pre, goodEntry p = true) → (∀ p ∈ tbl, goodEntry p = true) →
    (∀ p ∈ tbl, p.1.isPrefixOf (38 :: t) = false) →
    seqDecode tbl (38 :: seqDecode pre t) = 38 :: seqDecode (pre ++ tbl) t
  | [], pre, t, _, _, _ => by simp [seqDecode]
  | p :: tbl, pre, t, hpre, hg, hno => by
    have hp := hg p (List.mem_cons_self _ _)
    have hnp : p.1.isPrefixOf (38 :: seqDecode pre t) = false := by
      apply Bool.eq_false_iff.mpr
      intro hcon
      have h1 := List.isPrefixOf_iff_prefix.mp hcon
      rw [goodEntry_name hp] at h1
      have h2 := (List.cons_prefix_cons.mp h1).2
      have h3 := seqDecode_reflects_start pre hpre _ t (goodEntry_body hp) h2
      have h4 : p.1 <+: 38 :: t := by
        rw [goodEntry_name hp]
        exact List.cons_prefix_cons.mpr ⟨rfl, h3⟩
      have := hno p (List.mem_cons_self _ _)
      rw [List.isPrefixOf_iff_prefix.mpr h4] at this
      exact Bool.noConfusion this
    rw [seqDecode_cons, replaceAll_cons_of_not_isPrefixOf _ hnp]
    have hstep : replaceAll (seqDecode pre t) p.1 [p.2] = seqDecode (pre ++ [p]) t := by
      rw [seqDecode_append]
      rfl
    rw [hstep, seqDecode_amp_kept tbl (pre ++ [p]) t
      (fun q hq => by
        rcases List.mem_append.mp hq with h | h
        · exact hpre q h
        · rw [List.mem_singleton.mp h]; exact hp)
      (fun q hq => hg q (List.mem_cons_of_mem _ hq))
      (fun q hq => hno q (List.mem_cons_of_mem _ hq))]
    simp

theorem not_prefix_of_incomparable {a e : Str} (X : Str) (h1 : a.isPrefixOf e = false)
    (h2 : e.isPrefixOf a = false) : a.isPrefixOf (e ++ X) = false := by
  apply Bool.eq_false_iff.mpr
  intro hcon
  have hp := List.isPrefixOf_iff_prefix.mp hcon
  have he : e <+: e ++ X := List.prefix_append _ _
  by_cases hlen : a.length ≤ e.length
  · have := List.isPrefixOf_iff_prefix.mpr (List.prefix_of_prefix_length_le hp he hlen)
    rw [h1] at this
    exact Bool.noConfusion this
  · have := List.isPrefixOf_iff_prefix.mpr (List.prefix_of_prefix_length_le he hp (by omega))
    rw [h2] at this
    exact Bool.noConfusion this

theorem seqDecode_before_entity (body : Str) (hbody : 38 ∉ body) :
    ∀ (pre : List (Str × Nat)) (R : Str), (∀ p ∈ pre, goodEntry p = true) →
    (∀ p ∈ pre, p.1.isPrefixOf (38 :: body) = false ∧ (38 :: body).isPrefixOf p.1 = false) →
    seqDecode pre (38 :: body ++ R) = 38 :: body ++ seqDecode pre R
  | [], _, _, _ => rfl
  | p :: pre, R, hg, hinc => by
    have hp := hg p (List.mem_cons_self _ _)
    have hi := hinc p (List.mem_cons_self _ _)
    have hnp := not_prefix_of_incomparable R hi.1 hi.2
    have hrun := seqDecode_plain_run [p] (fun q hq => by rw [List.mem_singleton.mp hq]; exact hp)
      body R hbody
    have hrun' : replaceAll (body ++ R) p.1 [p.2] = body ++ replaceAll R p.1 [p.2] := hrun
    simp only [List.cons_append] at hnp ⊢
    rw [seqDecode_cons, replaceAll_cons_of_not_isPrefixOf _ hnp, hrun']
    have := seqDecode_before_entity body hbody pre (replaceAll R p.1 [p.2])
      (fun q hq => hg q (List.mem_cons_of_mem _ hq))
      (fun q hq => hinc q (List.mem_cons_of_mem _ hq))
    simp only [List.cons_append] at this
    rw [this, seqDecode_cons]

/-- The passes decode an entity at the start of the text and go on with the rest,
unless the entity is `&amp;` and the rest begins like the name of a later
entity of the table without its `&`. -/
theorem seqDecode_entity (pre post : List (Str × Nat)) (e : Str) (c : Nat) (R : Str)
    (hg : ∀ p ∈ pre ++ (e, c) :: post, goodEntry p = true)
    (hinc : ∀ p ∈ pre, p.1.isPrefixOf e = false ∧ e.isPrefixOf p.1 = false)
    (hpost : c ≠ 38 ∨ ∀ p ∈ post, p.1.isPrefixOf (38 :: R) = false) :
    seqDecode (pre ++ (e, c) :: post) (e ++ R) = c :: seqDecode (pre ++ (e, c) :: post) R := by
  have hge : goodEntry (e, c) = true := hg _ (by simp)
  have hgpre : ∀ p ∈ pre, goodEntry p = true := fun p hp => hg p (by simp [hp])
  have hgpost : ∀ p ∈ post, goodEntry p = true := fun p hp => hg p (by simp [hp])
  have hname : e = 38 :: e.tail := goodEntry_name hge
  have hbody : 38 ∉ e.tail := fun h => goodEntry_body hge 38 h (by decide)
  have h1 : seqDecode pre (e ++ R) = e ++ seqDecode pre R := by
    have := seqDecode_before_entity e.tail hbody pre R hgpre (by rw [← hname]; exact hinc)
    rw [← hname] at this
    exact this
  have h2 : replaceAll (e ++ seqDecode pre R) e [c] = c :: seqDecode (pre ++ [(e, c)]) R := by
    have := @replaceAll_of_isPrefixOf 38 e.tail [c] (seqDecode pre R)
    rw [← hname] at this
    rw [this, seqDecode_append]
    rfl
  have hsplit : pre ++ (e, c) :: post = (pre ++ [(e, c)]) ++ post := by simp
  have hstart : seqDecode (pre ++ (e, c) :: post) (e ++ R) =
      seqDecode post (c :: seqDecode (pre ++ [(e, c)]) R) := by
    rw [seqDecode_append, seqDecode_cons, h1]
    show seqDecode post (replaceAll (e ++ seqDecode pre R) e [c]) = _
    rw [h2]
  rw [hstart]
  by_cases hc : c = 38
  · subst hc
    rcases hpost with h | h
    · exact absurd rfl h
    · rw [seqDecode_amp_kept post (pre ++ [(e, 38)]) R
        (fun q hq => by
          rcases List.mem_append.mp hq with h' | h'
          · exact hgpre q h'
          · rw [List.mem_singleton.mp h']; exact hge)
        hgpost h, ← hsplit]
  · rw [seqDecode_plain post hgpost c _ hc, hsplit, seqDecode_append (pre ++ [(e, c)]) post]

theorem specDecodeGo_skip : ∀ (X R : Str), specDecodeGo (X ++ R) X.length = specDecodeGo R 0
  | [], R => by simp
  | x :: X, R => by
    simp only [List.cons_append, List.length_cons]
    rw [specDecodeGo, specDecodeGo_skip X R]

theorem specEntities_good : ∀ p ∈ specEntities, goodEntry p = true := by decide

theorem amp_rest_free {R : Str} (b : Str)
    (h : (str "&amp;" ++ b).isPrefixOf (str "&amp;" ++ R) = false) :
    (38 :: b).isPrefixOf (38 :: R) = false := by
  apply Bool.eq_false_iff.mpr
  intro hcon
  have h1 := (List.cons_prefix_cons.mp (List.isPrefixOf_iff_prefix.mp hcon)).2
  have h2 : str "&amp;" ++ b <+: str "&amp;" ++ R := (List.prefix_append_right_inj _).mpr h1
  rw [List.isPrefixOf_iff_prefix.mpr h2] at h
  exact Bool.noConfusion h

/-- Where no `&amp;` is followed by `#39;` or `#x27;`, the six successive passes of
the source compute the one-pass decoding. -/
theorem decodeEntities_eq_specDecode : ∀ (n : Nat) (C : Str), C.length ≤ n →
    contains C (str "&amp;#39;") = false → contains C (str "&amp;#x27;") = false →
    decodeEntities C = specDecode C
  | _, [], _, _, _ => by decide
  | 0, x :: t, h, _, _ => by simp at h
  | n + 1, x :: t, hlen, h5, h6 => by
    rw [decodeEntities_eq_seqDecode]
    unfold specDecode
    rw [specDecodeGo]
    cases hf : specEntities.find? (fun e => e.1.isPrefixOf (x :: t)) with
    | none =>
      simp only
      have hno : ∀ p ∈ specEntities, p.1.isPrefixOf (x :: t) = false := by
        intro p hp
        have := List.find?_eq_none.mp hf p hp
        exact Bool.eq_false_iff.mpr this
      have ih := decodeEntities_eq_specDecode n t (by simp at hlen; omega)
        (contains_cons_false h5).2 (contains_cons_false h6).2
      rw [decodeEntities_eq_seqDecode] at ih
      unfold specDecode at ih
      rw [← ih]
      by_cases hx : x = 38
      · subst hx
        have := seqDecode_amp_kept specEntities [] t (fun _ h => by simp at h)
          specEntities_good hno
        simpa [seqDecode] using this
      · exact seqDecode_plain specEntities specEntities_good x t hx
    | some p =>
      simp only
      have hmem := List.mem_of_find?_eq_some hf
      have hpre : p.1.isPrefixOf (x :: t) = true :=
        @List.find?_some _ (fun e => e.1.isPrefixOf (x :: t)) p specEntities hf
      have hsplit : p.1 ++ (x :: t).drop p.1.length = x :: t :=
        List.prefix_iff_eq_append.mp (List.isPrefixOf_iff_prefix.mp hpre)
      have hname := goodEntry_name (specEntities_good p hmem)
      have hplen : 0 < p.1.length := by rw [hname]; simp
      have hRlen : ((x :: t).drop p.1.length).length ≤ n := by
        simp only [List.length_drop, List.length_cons] at hlen ⊢
        omega
      have ih := decodeEntities_eq_specDecode n ((x :: t).drop p.1.length) hRlen
        (contains_drop_false _ _ _ h5) (contains_drop_false _ _ _ h6)
      rw [decodeEntities_eq_seqDecode] at ih
      unfold specDecode at ih
      have htail : t = p.1.tail ++ (x :: t).drop p.1.length := by
        have := hsplit
        rw [hname] at this
        simp only [List.cons_append, List.cons.injEq] at this
        rw [← hname] at this
        exact this.2.symm
      have hskip : specDecodeGo t (p.1.length - 1) = specDecodeGo ((x :: t).drop p.1.length) 0 := by
        have hl : p.1.length - 1 = p.1.tail.length := by simp
        rw [hl]
        conv_lhs => rw [htail]
        exact specDecodeGo_skip _ _
      rw [hskip, ← ih, ← hsplit]
      have h5' : (str "&amp;#39;").isPrefixOf (x :: t) = false := contains_false_drop _ _ 0 h5
      have h6' : (str "&amp;#x27;").isPrefixOf (x :: t) = false := contains_false_drop _ _ 0 h6
      generalize (x :: t).drop p.1.length = R at hsplit ⊢
      simp only [specEntities, List.mem_cons, List.mem_singleton, List.not_mem_nil, or_false]
        at hmem
      rcases hmem with rfl | rfl | rfl | rfl | rfl | rfl
      · exact seqDecode_entity [] _ _ _ R (by decide) (by decide) (Or.inl (by decide))
      · exact seqDecode_entity [(str "&lt;", 60)] _ _ _ R (by decide) (by decide)
          (Or.inl (by decide))
      · exact seqDecode_entity [(str "&lt;", 60), (str "&gt;", 62)] _ _ _ R (by decide)
          (by decide) (Or.inl (by decide))
      · refine seqDecode_entity [(str "&lt;", 60), (str "&gt;", 62), (str "&quot;", 34)] _ _ _ R
          (by decide) (by decide) (Or.inr ?_)
        simp only at hsplit
        rw [← hsplit] at h5' h6'
        intro q hq
        simp only [List.mem_cons, List.mem_singleton, List.not_mem_nil, or_false] at hq
        rcases hq with rfl | rfl
        · exact amp_rest_free (str "#39;") h5'
        · exact amp_rest_free (str "#x27;") h6'
      · exact seqDecode_entity
          [(str "&lt;", 60), (str "&gt;", 62), (str "&quot;", 34), (str "&amp;", 38)] _ _ _ R
          (by decide) (by decide) (Or.inl (by decide))
      · exact seqDecode_entity
          [(str "&lt;", 60), (str "&gt;", 62), (str "&quot;", 34), (str "&amp;", 38),
            (str "&#39;", 39)] _ _ _ R (by decide) (by decide) (Or.inl (by decide))

theorem outChars_not_colon : ∀ c ∈ outChars, c ≠ 58 := by decide

theorem specDecode_head (C : Str) (h : C.head? ≠ some 58) : (specDecode C).head? ≠ some 58 := by
  cases C with
  | nil => exact h
  | cons x t =>
    unfold specDecode
    rw [specDecodeGo]
    cases hf : specEntities.find? (fun e => e.1.isPrefixOf (x :: t)) with
    | none => exact h
    | some p =>
      simp only [List.head?_cons, ne_eq, Option.some.injEq]
      exact outChars_not_colon _
        (goodEntry_value (specEntities_good p (List.mem_of_find?_eq_some hf)))

theorem removeLangHint_noop {s : Str} (h : s.head? ≠ some 58) : removeLangHint s = s := by
  have hn : langHintEnd s = none := by
    unfold langHintEnd
    split
    · exact absurd rfl h
    · rfl
  unfold removeLangHint
  rw [hn]

theorem contains_close_of_no_lt {C : Str} (h : 60 ∉ C) :
    contains C (str "</code></pre>") = false := by
  apply Bool.eq_false_iff.mpr
  intro hc
  obtain ⟨a, b, hab⟩ := (contains_iff C _).mp hc
  apply h
  rw [hab, str_close]
  simp

/-- C2 (amended). For a code block whose inner text `C` has no `<`, does not begin
with `:`, has no `&amp;` followed by `#39;` or `#x27;`, and whose one-pass
decoding `D(C)` holds no snippet-marker opening: `cleanCode(C)` is `D(C)` with
every `<...>` span removed, the code body extracted by `parseAnswer` is that
text trimmed (dropped when empty), and it is `D(C)` itself trimmed when no `<`
of `D(C)` has a `>` after it. -/
theorem code_body_decoded (P C Q : Str)
    (hP : contains P (str "<pre") = false) (hQ : contains Q (str "<pre") = false)
    (hlt : 60 ∉ C) (hcolon : C.head? ≠ some 58)
    (h5 : contains C (str "&amp;#39;") = false) (h6 : contains C (str "&amp;#x27;") = false)
    (hm1 : contains (specDecode C) (str "<!-- language: lang-") = false)
    (hm2 : contains (specDecode C) (str "<!-- language-all: lang-") = false) :
    cleanCode C = stripTags (specDecode C) ∧
      (∃ before after,
        parseAnswer (P ++ str "<pre><code>" ++ C ++ str "</code></pre>" ++ Q) =
          some ([TrimSpace (stripTags (specDecode C))].filter (fun c => c ≠ []), before, after)) ∧
      (hasTag (specDecode C) = false → cleanCode C = specDecode C ∧
        ∃ before after,
          parseAnswer (P ++ str "<pre><code>" ++ C ++ str "</code></pre>" ++ Q) =
            some ([TrimSpace (specDecode C)].filter (fun c => c ≠ []), before, after)) := by
  have hclean : cleanCode C = stripTags (specDecode C) := by
    unfold cleanCode
    simp only
    rw [decodeEntities_eq_specDecode C.length C (Nat.le_refl _) h5 h6,
      removeLangHint_noop (specDecode_head C hcolon), replaceAll_noop _ hm1,
      replaceAll_noop _ hm2]
  have hC := contains_close_of_no_lt hlt
  have hshape : P ++ str "<pre><code>" ++ C ++ str "</code></pre>" ++ Q = P ++ (blk C ++ Q) := by
    simp [blk, List.append_assoc]
  have hf := findAll_one_block hP hQ hC
  have hcode : ((P ++ (blk C ++ Q)).take (P.length + (11 + C.length))).drop (P.length + 11)
      = C := by
    have e : P ++ (blk C ++ Q) = (P ++ str "<pre><code>") ++ (C ++ (str "</code></pre>" ++ Q)) := by
      simp [blk, List.append_assoc]
    rw [e]
    apply take_drop_mid
    · simp [str_open]
    · simp [str_open]; omega
  obtain ⟨b, hb⟩ := cutBefore_total (TrimSpace (stripHTML ((P ++ (blk C ++ Q)).take P.length)))
  obtain ⟨a, ha⟩ := cutAfter_total (TrimSpace (stripHTML ((P ++ (blk C ++ Q)).drop
    (([(⟨P.length, P.length + (24 + C.length), P.length + 11, P.length + (11 + C.length)⟩ : Loc)]
      ).getLast (List.cons_ne_nil _ _)).m1)))
  have hparse : parseAnswer (P ++ str "<pre><code>" ++ C ++ str "</code></pre>" ++ Q) =
      some ([TrimSpace (stripTags (specDecode C))].filter (fun c => c ≠ []), b, a) := by
    rw [hshape, parseAnswer_cons hf hb ha]
    simp only [codeBodies, List.map_cons, List.map_nil, hcode, hclean]
  refine ⟨hclean, ⟨b, a, hparse⟩, ?_⟩
  intro hno
  have hst : stripTags (specDecode C) = specDecode C := stripTagsGo_noop _ hno
  refine ⟨by rw [hclean, hst], b, a, ?_⟩
  rw [hparse, hst]

/-- Instance of the amended C2: a comparison and a conjunction, without any `>`. -/
theorem code_body_decoded_witness :
    cleanCode (str "a &lt; b &amp;&amp; c") = str "a < b && c" ∧
      ∃ before after, parseAnswer (str "<pre><code>a &lt; b &amp;&amp; c</code></pre>") =
        some ([str "a < b && c"], before, after) := by
  have h := code_body_decoded [] (str "a &lt; b &amp;&amp; c") [] (by decide) (by decide)
    (by decide) (by decide) (by decide) (by decide) (by decide) (by decide)
  obtain ⟨hc, b, a, hp⟩ := h.2.2 (by decide)
  have hd : specDecode (str "a &lt; b &amp;&amp; c") = str "a < b && c" := by decide
  rw [hd] at hc hp
  refine ⟨hc, b, a, ?_⟩
  have e : str "<pre><code>a &lt; b &amp;&amp; c</code></pre>" =
      [] ++ str "<pre><code>" ++ str "a &lt; b &amp;&amp; c" ++ str "</code></pre>" ++ [] := by
    decide
  have hf : [TrimSpace (str "a < b && c")].filter (fun c => c ≠ []) = [str "a < b && c"] := by
    decide
  rw [e, hp, hf]

end So
